import Mathlib

/-
  Verification of the stlr transcription/animation library.

  Conventions of the shallow embedding:
  * Python strings are modelled as lists of characters (`PyStr`).
  * Python floats are modelled as exact rationals (`ℚ`); arithmetic on them is
    exact, and decimal formatting (`%.2f`, `%.3f`) rounds half-to-even on the
    rational value, which agrees with CPython on dyadic rationals.
  * Fallible operations (IndexError, non-terminating loops) are modelled with
    `Option`.
-/

namespace Stlr

section
set_option allowUnsafeReducibility true
attribute [semireducible] Rat.add Rat.sub Rat.mul Rat.inv Rat.ofScientific
end

/-- Python strings, modelled as their list of characters. -/
abbrev PyStr := List Char

/-- The characters matched by Python's `\s` (and stripped by `str.strip()`,
    split on by `str.split()`): ASCII whitespace, the separator controls
    U+001C–U+001F, next line U+0085, no-break space U+00A0, Ogham space mark
    U+1680, the fixed-width spaces U+2000–U+200A, line separator U+2028,
    paragraph separator U+2029, narrow no-break space U+202F, medium
    mathematical space U+205F and ideographic space U+3000. -/
def pySpaceChars : PyStr :=
  [' ', '\t', '\n', '\x0b', '\x0c', '\r',
   '\x1c', '\x1d', '\x1e', '\x1f', '\x85', '\xa0', '\u1680',
   '\u2000', '\u2001', '\u2002', '\u2003', '\u2004', '\u2005', '\u2006',
   '\u2007', '\u2008', '\u2009', '\u200a',
   '\u2028', '\u2029', '\u202f', '\u205f', '\u3000']

/-- Python `\s` / `str.isspace()` whitespace. -/
def isPySpace (c : Char) : Bool := decide (c ∈ pySpaceChars)

/-- The line boundaries at which Python `str.splitlines()` splits: `\n`, `\r`
    (with `\r\n` counting as a single boundary), `\v`, `\f`, U+001C–U+001E,
    next line U+0085, line separator U+2028 and paragraph separator U+2029. -/
def lineBoundaryChars : PyStr :=
  ['\n', '\r', '\x0b', '\x0c', '\x1c', '\x1d', '\x1e', '\x85', '\u2028', '\u2029']

def isLineBoundary (c : Char) : Bool := decide (c ∈ lineBoundaryChars)

/-- The character for a decimal digit value. -/
def digitChar (n : ℕ) : Char := Char.ofNat (48 + n)

/-- The decimal value of a digit character. -/
def digitVal (c : Char) : ℕ := c.toNat - 48

/-- Decimal digits of a natural number, most significant first (structural on
    a fuel argument that always suffices, keeping kernel reduction possible). -/
def natDigitsAux : ℕ → ℕ → List Char
  | 0, n => [digitChar n]
  | fuel + 1, n =>
    if n < 10 then [digitChar n]
    else natDigitsAux fuel (n / 10) ++ [digitChar (n % 10)]

def natDigits (n : ℕ) : List Char := natDigitsAux n n

/-- Exactly `p` decimal digits of `n % 10^p`, most significant first (zero-padded). -/
def padDigits (n : ℕ) : ℕ → List Char
  | 0 => []
  | p + 1 => padDigits (n / 10) p ++ [digitChar (n % 10)]

/-- Value of a most-significant-first digit string. -/
def digitsVal (cs : List Char) : ℕ :=
  cs.foldl (fun a c => 10 * a + digitVal c) 0

/-- Python `round` (and the rounding of `%`-formatting): round half to even. -/
def pyRound (q : ℚ) : ℤ :=
  if Int.fract q < 1 / 2 then ⌊q⌋
  else if 1 / 2 < Int.fract q then ⌊q⌋ + 1
  else if ⌊q⌋ % 2 = 0 then ⌊q⌋ else ⌊q⌋ + 1

/-- Python `format(x, ".Nf")` on our rationals: fixed-point with `prec` decimals,
    rounding half to even. -/
def fmtRat (q : ℚ) (prec : ℕ) : PyStr :=
  let n := (pyRound (|q| * (10 : ℚ) ^ prec)).toNat
  let sign : PyStr := if q < 0 then ['-'] else []
  sign ++ natDigits (n / 10 ^ prec) ++ '.' :: padDigits (n % 10 ^ prec) prec

/-- Embeds `stlr.utils.read_leading_float`: `re.match(r"\s*([0-9]*\.?[0-9]+)", s)`,
    returning the matched decimal as a rational.  The backtracking of the regex
    means that for input like `"12."` the match is `"12"`; this is reproduced by
    the `d2 = []` fallback branch. -/
def readLeadingFloat (line : PyStr) : Option ℚ :=
  let rest := line.dropWhile isPySpace
  let d1 := rest.takeWhile Char.isDigit
  let rest2 := rest.dropWhile Char.isDigit
  match rest2 with
  | '.' :: rest3 =>
    let d2 := rest3.takeWhile Char.isDigit
    if d2 ≠ [] then some ((digitsVal d1 : ℚ) + (digitsVal d2 : ℚ) / 10 ^ d2.length)
    else if d1 ≠ [] then some (digitsVal d1) else none
  | _ => if d1 ≠ [] then some (digitsVal d1) else none

/-- Embeds `stlr.utils.get_space_prefix`: the maximal leading run of whitespace. -/
def leadingSpaces (line : PyStr) : PyStr := line.takeWhile isPySpace

/-- Python `str.splitlines()`: a piece is emitted at every line boundary, with
    `\r\n` consumed as a single boundary; the residue is emitted only when
    non-empty, so a trailing line break does not produce a final empty line. -/
def splitlinesGo : PyStr → PyStr → List PyStr
  | [], acc => if acc.isEmpty then [] else [acc.reverse]
  | [c], acc =>
    if isLineBoundary c then [acc.reverse] else [(c :: acc).reverse]
  | c :: c2 :: cs, acc =>
    if c = '\r' then
      if c2 = '\n' then acc.reverse :: splitlinesGo cs []
      else acc.reverse :: splitlinesGo (c2 :: cs) []
    else if isLineBoundary c then acc.reverse :: splitlinesGo (c2 :: cs) []
    else splitlinesGo (c2 :: cs) (c :: acc)

def splitlines (s : PyStr) : List PyStr := splitlinesGo s []

/-- Python `"\n".join(lines)`. -/
def joinNl (lines : List PyStr) : PyStr := List.intercalate ['\n'] lines

/-- Python `str.split()` (split on whitespace runs, dropping empty pieces). -/
def splitWsAux : PyStr → PyStr → List PyStr
  | [], acc => if acc.isEmpty then [] else [acc.reverse]
  | c :: cs, acc =>
    if isPySpace c then
      if acc.isEmpty then splitWsAux cs [] else acc.reverse :: splitWsAux cs []
    else splitWsAux cs (c :: acc)

def splitWs (s : PyStr) : List PyStr := splitWsAux s []

/-- Python `str.strip()` on the left. -/
def stripLeft (s : PyStr) : PyStr := s.dropWhile isPySpace

/-- Python `str.strip()` on the right. -/
def stripRight (s : PyStr) : PyStr := (s.reverse.dropWhile isPySpace).reverse

/-- Python `str.strip()`. -/
def strip (s : PyStr) : PyStr := stripRight (stripLeft s)

/-- Splitting on a single character, keeping empty pieces (`str.split('/')`). -/
def splitOnChar (sep : Char) : PyStr → List PyStr
  | [] => [[]]
  | c :: cs =>
    if c = sep then [] :: splitOnChar sep cs
    else
      match splitOnChar sep cs with
      | [] => [[c]]
      | p :: ps => (c :: p) :: ps

/-- Embeds `re.split(r"\s*/\s*", s)`: split at each `/`, absorbing the whitespace
    around it (so every piece except the first is left-stripped and every piece
    except the last is right-stripped; no `\s` can contain `/`, so the greedy
    regex consumes exactly that whitespace). -/
def splitSlashes (s : PyStr) : List PyStr :=
  let parts := splitOnChar '/' s
  let n := parts.length
  parts.mapIdx (fun i p =>
    let p := if 0 < i then stripLeft p else p
    if i + 1 < n then stripRight p else p)

/-- A string is an acceptable tail after a number: empty, or starting with a
    character that extends neither the digit run nor a decimal point. -/
def numStopper (s : PyStr) : Prop :=
  s = [] ∨ ∃ c cs, s = c :: cs ∧ c.isDigit = false ∧ c ≠ '.'

/-! ## Timing model (src/stlr/transcribe.py) -/

/-- Embeds `stlr.transcribe.WordTiming`. -/
structure WordTiming where
  word : PyStr
  start : ℚ
  «end» : ℚ
  confidence : ℚ := 0
deriving DecidableEq

/-- Embeds `WordTiming.duration = end - start`. -/
def WordTiming.duration (w : WordTiming) : ℚ := w.«end» - w.start

/-- Embeds `stlr.transcribe.Segment`. -/
structure Segment where
  words : List WordTiming
  wait_after : ℚ
deriving DecidableEq

/-- Embeds `Segment.start = min(w.start for w in self.words)`; Python `min`
    raises `ValueError` on an empty sequence, hence `Option`. -/
def Segment.start? (s : Segment) : Option ℚ := (s.words.map WordTiming.start).min?

/-- Embeds `Segment.end = max(w.end for w in self.words)`; `Option` as above. -/
def Segment.end? (s : Segment) : Option ℚ := (s.words.map WordTiming.«end»).max?

/-- Embeds `Segment.duration = self.end - self.start`. -/
def Segment.duration? (s : Segment) : Option ℚ := do
  let e ← s.end?
  let st ← s.start?
  pure (e - st)

/-- Embeds `stlr.transcribe.Transcription`, i.e. its tuple of word timings. -/
abbrev Transcription := List WordTiming

/-- Embeds `Transcription.start` (0.0 for an empty transcription). -/
def Transcription.tStart (t : Transcription) : ℚ := ((t.head?).map WordTiming.start).getD 0

/-- Embeds `Transcription.duration = word_timings[-1].end` (0.0 when empty). -/
def Transcription.duration (t : Transcription) : ℚ := ((t.getLast?).map WordTiming.«end»).getD 0

/-- Modelled from the spec: `stlr.utils.pairwise` is used by
    `Transcription.get_segments` and `Transcription.waits` but its definition is
    not under `src/`; the spec describes the walk over consecutive words
    (`prev`, `next`), i.e. the standard `itertools`-style pairwise iterator. -/
def pairwise (l : List α) : List (α × α) := l.zip l.tail

/-- Embeds `Transcription.waits`: pauses after each word ([] when fewer than two words). -/
def Transcription.waits (t : Transcription) : List ℚ :=
  if t.length < 2 then []
  else (pairwise t).map (fun ab => ab.2.start - ab.1.«end») ++ [0]

/-- Loop body of `Transcription.get_segments`: `block` is the segment being
    accumulated, and each `(prev, curr)` pair with `wait = curr.start - prev.end`
    either extends it (`wait <= tolerance`) or closes it and starts a new one. -/
def segmentsLoop (tolerance : ℚ) (block : List WordTiming) :
    List (WordTiming × WordTiming) → List Segment
  | [] => [⟨block, 0⟩]
  | (prev, curr) :: rest =>
    if curr.start - prev.«end» ≤ tolerance then segmentsLoop tolerance (block ++ [curr]) rest
    else ⟨block, curr.start - prev.«end»⟩ :: segmentsLoop tolerance [curr] rest

/-- Embeds `Transcription.get_segments`: the `len(self) < 2` guard is the two
    first cases; otherwise walk the pairwise words from a block seeded with the
    first word. -/
def get_segments (t : Transcription) (tolerance : ℚ) : List Segment :=
  match t with
  | [] => [⟨[], 0⟩]
  | [w] => [⟨[w], 0⟩]
  | w :: rest => segmentsLoop tolerance [w] (pairwise (w :: rest))

/-- Chained pair lists: the pair stream produced by `pairwise` starting from a
    given word (each pair's first component is the previous pair's second). -/
def linked : WordTiming → List (WordTiming × WordTiming) → Prop
  | _, [] => True
  | w, (p, c) :: rest => p = w ∧ linked c rest

/-! ## Transcript reconciler (src/stlr/hoshi.py) -/

/-- Embeds `stable_whisper.result.WordTiming` (word, start, end) as the
    reconciler consumes and produces it. -/
structure SWWord where
  word : PyStr
  start : ℚ
  «end» : ℚ
deriving DecidableEq

/-- One entry of `whisper_result["segments"]`: the fields the reconciler
    reads (`text`) and writes (`words`). -/
structure WhisperSegment where
  text : PyStr
  words : List SWWord
deriving DecidableEq

/-- The parts of the `whisper_result` dict that `reconcile` uses. -/
structure WhisperDict where
  text : PyStr
  segments : List WhisperSegment
deriving DecidableEq

/-- Python `' '.join(...)`. -/
def joinSpace (ws : List PyStr) : PyStr := List.intercalate [' '] ws

/-- Embeds the per-segment loop of `_reconcile_equal_simple`:
    `segment["words"] = [v for v, _ in zip(vosk_words, whisper_words)]` over a
    single `vosk_words` iterator shared by all segments.  CPython's `zip`
    consumes one further element from its first argument when the second is
    exhausted first, so a segment whose `text` splits into `k` words consumes
    `min(k + 1, len(remaining))` timings but keeps only the first
    `min(k, len(remaining))`. -/
def equalSimpleLoop : List WhisperSegment → List SWWord → List WhisperSegment
  | [], _ => []
  | seg :: rest, vosk =>
    let k := (splitWs seg.text).length
    ⟨seg.text, vosk.take k⟩ :: equalSimpleLoop rest (vosk.drop (min (k + 1) vosk.length))

/-- Embeds `stlr.hoshi._reconcile_equal_simple`. -/
def reconcile_equal_simple (w : WhisperDict) (vosk : List SWWord) : WhisperDict :=
  ⟨w.text, equalSimpleLoop w.segments vosk⟩

/-- Embeds `stlr.hoshi._reconcile_unequal_simple` (text discarded, one segment
    made of the vosk words); `min`/`max` over an empty `vosk_result` raises. -/
def reconcile_unequal_simple (w : WhisperDict) (vosk : List SWWord) : Option WhisperDict :=
  match vosk with
  | [] => none
  | _ => some ⟨w.text, [⟨joinSpace (vosk.map SWWord.word), vosk⟩]⟩

/-- Embeds the dispatch of `stlr.hoshi.reconcile`.  The assisted path opens the
    interactive hoshi window — an external capability — and is modelled as
    `none` (no transcript is produced by the embedded, non-interactive part). -/
def reconcile (w : WhisperDict) (vosk : List SWWord) (mode : PyStr) : Option WhisperDict :=
  if (splitWs w.text).length = vosk.length ∧ mode ≠ ("always-assisted".data) then
    some (reconcile_equal_simple w vosk)
  else if mode = ("simple".data) then reconcile_unequal_simple w vosk
  else none

/-- State of the two shared iterators inside `HoshiAssistant.reconcile`:
    `true_transcription` (whisper words) and `timings` (vosk word timings). -/
structure RecState where
  trueTranscription : List PyStr
  timings : List SWWord
deriving DecidableEq

/-- Embeds the loop of `HoshiAssistant.reconcile._reconcile_one` over the
    zipped whisper/vosk sub-segments of one disagreed row.  For each pair:
    consume `n_whisper` words from the transcription (joined as the text),
    skip the pair when `n_vosk == 0`, otherwise consume `min(n_vosk, remaining)`
    timings and emit one combined word spanning the first consumed timing's
    start to the last consumed timing's end; indexing an empty timing tuple is
    an `IndexError`, modelled as `none`. -/
def reconcileOneLoop : List (PyStr × PyStr) → RecState → Option (List SWWord × RecState)
  | [], st => some ([], st)
  | (wseg, vseg) :: rest, st =>
    let nW := (splitWs wseg).length
    let text := joinSpace (st.trueTranscription.take nW)
    let st1 : RecState := ⟨st.trueTranscription.drop nW, st.timings⟩
    let nV := (splitWs vseg).length
    if nV = 0 then reconcileOneLoop rest st1
    else
      match (st1.timings.take nV).head?, (st1.timings.take nV).getLast? with
      | some fst, some lst =>
        (reconcileOneLoop rest ⟨st1.trueTranscription, st1.timings.drop nV⟩).map
          (fun p => (⟨text, fst.start, lst.«end»⟩ :: p.1, p.2))
      | _, _ => none

/-- Embeds `_reconcile_one` for one row: split both phrases on slashes and run
    the zipped loop. -/
def reconcile_one (whisperPhrase voskPhrase : PyStr) (st : RecState) :
    Option (List SWWord × RecState) :=
  reconcileOneLoop ((splitSlashes whisperPhrase).zip (splitSlashes voskPhrase)) st

/-! ## Frame timing generator (src/stlr/vn.py) -/

/-- A boundary event of `ATLImageGenerator.annotate`: `(word, time, "start"|"end")`. -/
abbrev BoundEvent := PyStr × ℚ × PyStr

/-- Python `sorted(..., key=lambda item: item[1])` is a stable sort by time;
    modelled as insertion sort that inserts after all earlier equal keys. -/
def insertByTime (x : BoundEvent) : List BoundEvent → List BoundEvent
  | [] => [x]
  | y :: ys => if y.2.1 ≤ x.2.1 then y :: insertByTime x ys else x :: y :: ys

def sortByTime : List BoundEvent → List BoundEvent
  | [] => []
  | x :: xs => insertByTime x (sortByTime xs)

/-- The start events of `annotate`: words with `start <= t.start < end`. -/
def startEvents (t : Transcription) (s e : ℚ) : List BoundEvent :=
  (t.filter (fun w => decide (s ≤ w.start) && decide (w.start < e))).map
    (fun w => (w.word, w.start, ("start".data : PyStr)))

/-- The end events of `annotate` (verbose mode): words with `start < t.end <= end`. -/
def endEvents (t : Transcription) (s e : ℚ) : List BoundEvent :=
  (t.filter (fun w => decide (s < w.«end») && decide (w.«end» ≤ e))).map
    (fun w => (w.word, w.«end», ("end".data : PyStr)))

/-- `boundaries` after the first `sorted(...)` call in `annotate`. -/
def terseBoundaries (t : Transcription) (s e : ℚ) : List BoundEvent :=
  sortByTime (startEvents t s e)

/-- `boundaries` after `boundaries += [...ends...]; boundaries.sort(...)`. -/
def verboseBoundaries (t : Transcription) (s e : ℚ) : List BoundEvent :=
  sortByTime (terseBoundaries t s e ++ endEvents t s e)

/-- Python `repr` of the simple word strings manipulated here (no quotes,
    backslashes or control characters in the words): `'word'`. -/
def reprStr (s : PyStr) : PyStr := '\'' :: s ++ ['\'']

/-- Embeds `ATLImageGenerator.annotate`. -/
def annotate (t : Transcription) (s e : ℚ) (verbose assisted : Bool) : PyStr :=
  if assisted && !verbose then []
  else if !verbose then
    let ann := List.intercalate (" |".data) ((terseBoundaries t s e).map (fun b => b.1))
    if ann ≠ [] then ("  # ".data) ++ ann else []
  else
    stripRight ((("  # animation time: ").data) ++ fmtRat s 3 ++ (" → ".data) ++ fmtRat e 3
      ++ [' ']
      ++ List.intercalate [' '] ((verboseBoundaries t s e).map (fun b =>
          ("| ".data) ++ reprStr b.1 ++ (" [".data) ++ b.2.2 ++ (" @ ".data)
            ++ fmtRat b.2.1 2 ++ [']'])))

/-- Embeds `stlr.utils.frange` at its three-argument uses `frange(start, stop,
    step)`.  When `step = 0`, neither exit test (`step > 0 and current >= stop`,
    `step < 0 and current <= stop`) can ever fire and the Python generator
    yields `start` forever — the callers then loop forever — so that case is
    modelled as `none`.  Otherwise the yielded values are `start + n * step`
    for `0 <= n < ⌈(stop - start) / step⌉`. -/
def frange (start stop step : ℚ) : Option (List ℚ) :=
  if step = 0 then none
  else some ((List.range (⌈(stop - start) / step⌉).toNat).map
    (fun n : ℕ => start + (n : ℚ) * step))

/-- Modelled from the spec: `Transcription.confident` is referenced by the
    generator headers (`'' if self.transcription.confident else '(!)'`) but is
    not defined under `src/`; the spec only documents per-word confidence, so it
    is modelled as every word having confidence at least one half.  The choice
    only affects the `(!)` marker inside a header comment line and no claim
    depends on it. -/
def Transcription.confident (t : Transcription) : Bool :=
  t.all (fun w => decide ((1 : ℚ)/2 ≤ w.confidence))

/-- Embeds `str(Transcription)`: the stripped words joined by spaces. -/
def Transcription.text (t : Transcription) : PyStr :=
  joinSpace (t.map (fun w => strip w.word))

/-- Python `str(float)` for the terminating decimals manipulated here: the
    shortest fixed-point form with at least one decimal digit (exact for
    decimals of at most 20 places; only used inside one header line whose
    precise text no claim depends on). -/
def pyFloatStr (q : ℚ) : PyStr :=
  let p := ((List.range 20).find? (fun p => (q * 10 ^ (p + 1)).den = 1)).getD 19
  fmtRat q (p + 1)

/-- Embeds the `ATLImageGenerator` constructor data: image name, transcription
    and the two mouth images.  The `cycle([open, closed])` iterator state is
    passed explicitly as the number of images consumed so far (0 at
    construction). -/
structure ATLImageGenerator where
  image_name : PyStr
  transcription : Transcription
  open_mouth : PyStr
  closed_mouth : PyStr
deriving DecidableEq

/-- The next image of `cycle([self.open_mouth, self.closed_mouth])` after `idx`
    images have been consumed. -/
def ATLImageGenerator.nextImage (g : ATLImageGenerator) (idx : ℕ) : PyStr :=
  if idx % 2 = 0 then g.open_mouth else g.closed_mouth

/-- An asset line `f"    \"{image.as_posix()}\""`. -/
def assetLine (img : PyStr) : PyStr := ("    \"".data) ++ img ++ ['"']

/-- The body of the frame loop of `alternate_frames_for_duration`: for each
    yielded time, an asset line for the next cycled image and a delay line
    `f"    {time_step:.3f}{annotation}"`. -/
def frameLines (g : ATLImageGenerator) (time_step : ℚ) (verbose : Bool) :
    List ℚ → ℕ → List PyStr
  | [], _ => []
  | time :: rest, idx =>
    assetLine (g.nextImage idx)
      :: (("    ".data) ++ fmtRat time_step 3
          ++ annotate g.transcription time (time + time_step) verbose false)
      :: frameLines g time_step verbose rest (idx + 1)

/-- Embeds `ATLImageGenerator.alternate_frames_for_duration`: returns the new
    lines, the last image used (`None` when no frame was emitted) and the new
    cycle position.  With `ensure_close` set and the last image differing from
    the closed mouth, one further image is drawn from the cycle and emitted as
    an asset line. -/
def alternate_frames_for_duration (g : ATLImageGenerator) (duration start time_step : ℚ)
    (ensure_close verbose : Bool) (idx : ℕ) : Option (List PyStr × Option PyStr × ℕ) := do
  let times ← frange start (start + duration) time_step
  let n := times.length
  let lines := frameLines g time_step verbose times idx
  let image : Option PyStr := if n = 0 then none else some (g.nextImage (idx + n - 1))
  if ensure_close = true ∧ image ≠ some g.closed_mouth then
    pure (lines ++ [assetLine (g.nextImage (idx + n))], image, idx + n + 1)
  else
    pure (lines, image, idx + n)

/-- Embeds `ATLImageGenerator.generate_atl` (fixed-step mode), as its list of
    lines; `generate_atl` itself joins them with newlines. -/
def generate_atl_lines (g : ATLImageGenerator) (verbose : Bool) (idx : ℕ) :
    Option (List PyStr) := do
  let header : List PyStr := [
    ("image ".data) ++ g.image_name ++ [':'],
    ("    # ".data) ++ (if g.transcription.confident then [] else "(!)".data)
      ++ (" Transcription: ".data) ++ g.transcription.text,
    ("    # length: ".data) ++ fmtRat g.transcription.duration 3 ++ (" seconds".data)]
  let (lines, _, _) ← alternate_frames_for_duration g g.transcription.duration 0 (1/5)
    true verbose idx
  pure (header ++ lines)

/-- Embeds `ATLImageGenerator.generate_atl`'s final string. -/
def generate_atl (g : ATLImageGenerator) (verbose : Bool) (idx : ℕ) : Option PyStr :=
  (generate_atl_lines g verbose idx).map joinNl

/-- Embeds `ATLImageGenerator._generate_smart_block`: the per-word frame length
    is `word.duration / max(round(word.duration / 0.2), 1)`, and the word's
    frames (closed-ensured) are wrapped in delineating comments. -/
def generate_smart_block (g : ATLImageGenerator) (w : WordTiming) (verbose : Bool) (idx : ℕ) :
    Option (List PyStr × ℕ) := do
  let frame_length := w.duration / ((max (pyRound (w.duration / (1/5))) 1 : ℤ) : ℚ)
  let (lines, _, idx') ← alternate_frames_for_duration g w.duration w.start frame_length
    true verbose idx
  pure ((("    # ↓ --- ".data) ++ w.word ++ (" (duration: ".data) ++ fmtRat w.duration 2
      ++ ("s) --- ↓".data))
    :: lines
    ++ [("    # ↑ --- ".data) ++ w.word ++ (" --- ↑".data)], idx')

/-- The word loop of `generate_smart_atl` over `zip(transcription, waits)`:
    each word's smart block, followed — when the wait is nonzero (Python
    truthiness) — by a blank line, a pause delay line and a blank line. -/
def smartBlocksLoop (g : ATLImageGenerator) (verbose : Bool) :
    List (WordTiming × ℚ) → ℕ → Option (List PyStr)
  | [], _ => some []
  | (w, wait) :: rest, idx => do
    let (block, idx') ← generate_smart_block g w verbose idx
    let pauseLines : List PyStr :=
      if wait ≠ 0 then [[], ("    ".data) ++ fmtRat wait 3 ++ ("  # (pause)".data), []]
      else []
    let restLines ← smartBlocksLoop g verbose rest idx'
    pure (block ++ pauseLines ++ restLines)

/-- Embeds `ATLImageGenerator.generate_smart_atl` (word-aligned mode), as its
    list of lines.  Note the closed-mouth header line is unquoted in the source
    and the start-time line uses `str(float)`. -/
def generate_smart_atl_lines (g : ATLImageGenerator) (verbose : Bool) (idx : ℕ) :
    Option (List PyStr) := do
  let header : List PyStr := [
    ("image ".data) ++ g.image_name ++ [':'],
    ("    # ".data) ++ (if g.transcription.confident then [] else "(!)".data)
      ++ (" Transcription: ".data) ++ g.transcription.text,
    ("    # length: ".data) ++ fmtRat g.transcription.duration 2 ++ (" seconds".data),
    ("    ".data) ++ g.closed_mouth,
    ("    ".data) ++ pyFloatStr g.transcription.tStart]
  let body ← smartBlocksLoop g verbose (g.transcription.zip g.transcription.waits) idx
  pure (header ++ body)

/-- Embeds the line loop of `ATLImageGenerator.reannotate`: passthrough for
    lines without a leading float; delay lines are re-emitted as
    `f"{prefix}{pause:.2f}{annotation}"` with the annotation recomputed over
    `[time, time + pause)`; once the accumulated time reaches the transcript
    duration the loop breaks (third component `true`), dropping the rest. -/
def reannotateLoop (t : Transcription) (verbose : Bool) :
    List PyStr → ℚ → (List PyStr × ℚ × Bool)
  | [], time => ([], time, false)
  | line :: rest, time =>
    match readLeadingFloat line with
    | none =>
      let r := reannotateLoop t verbose rest time
      (line :: r.1, r.2)
    | some pause =>
      let newline := leadingSpaces line ++ fmtRat pause 2
        ++ annotate t time (time + pause) verbose false
      if time + pause ≥ t.duration then ([newline], time + pause, true)
      else
        let r := reannotateLoop t verbose rest (time + pause)
        (newline :: r.1, r.2)

/-- Embeds `ATLImageGenerator.reannotate` over the split lines: if the loop was
    not broken and time is still short of the transcript duration, fixed-step
    frames for the remaining buffer are appended (ensure-close). -/
def reannotate_lines (g : ATLImageGenerator) (verbose : Bool) (lines : List PyStr) (idx : ℕ) :
    Option (List PyStr) :=
  let r := reannotateLoop g.transcription verbose lines 0
  if r.2.2 then some r.1
  else if r.2.1 < g.transcription.duration then do
    let (added, _, _) ← alternate_frames_for_duration g (g.transcription.duration - r.2.1)
      r.2.1 (1/5) true verbose idx
    pure (r.1 ++ added)
  else some r.1

/-- Embeds `ATLImageGenerator.reannotate` on the script string. -/
def reannotate (g : ATLImageGenerator) (verbose : Bool) (atl : PyStr) (idx : ℕ) :
    Option PyStr :=
  (reannotate_lines g verbose (splitlines atl) idx).map joinNl

/-- Embeds the `ATLImageGenerator.duration` property: the sum of the leading
    floats of all lines (0.0 for lines without one). -/
def atlDuration (lines : List PyStr) : ℚ :=
  (lines.map (fun l => (readLeadingFloat l).getD 0)).sum

/-- A quoted asset line: optional whitespace then a double quote. -/
def isAssetLine (l : PyStr) : Bool :=
  match l.dropWhile isPySpace with
  | c :: _ => decide (c = '"')
  | [] => false

/-- A delay line: one with a leading float. -/
def isDelayLine (l : PyStr) : Bool := (readLeadingFloat l).isSome

/-- The last quoted asset line of a script. -/
def lastAssetLine (lines : List PyStr) : Option PyStr := (lines.filter isAssetLine).getLast?

/-- The times yielded by `frange(start, start + d, ts)` for nonzero `ts`. -/
def afdTimes (d start ts : ℚ) : List ℚ :=
  (List.range (⌈d / ts⌉).toNat).map (fun n : ℕ => start + (n : ℚ) * ts)

theorem not_pySpace_of_isDigit {c : Char} (h : c.isDigit = true) : isPySpace c = false := by
  by_cases hmem : c ∈ pySpaceChars
  · have hd := (by decide : ∀ d ∈ pySpaceChars, d.isDigit = false) c hmem
    rw [h] at hd
    exact absurd hd (by decide)
  · rw [isPySpace]
    exact decide_eq_false hmem

theorem not_lineBoundary_of_isDigit {c : Char} (h : c.isDigit = true) :
    isLineBoundary c = false := by
  by_cases hmem : c ∈ lineBoundaryChars
  · have hd := (by decide : ∀ d ∈ lineBoundaryChars, d.isDigit = false) c hmem
    rw [h] at hd
    exact absurd hd (by decide)
  · rw [isLineBoundary]
    exact decide_eq_false hmem

theorem digitVal_digitChar (n : ℕ) (h : n < 10) : digitVal (digitChar n) = n := by
  interval_cases n <;> rfl

theorem digitChar_isDigit (n : ℕ) (h : n < 10) : (digitChar n).isDigit = true := by
  interval_cases n <;> rfl

theorem digitsVal_go (l : List Char) (a : ℕ) :
    l.foldl (fun a c => 10 * a + digitVal c) a = a * 10 ^ l.length + digitsVal l := by
  induction l generalizing a with
  | nil => simp [digitsVal]
  | cons c cs ih =>
    simp only [List.foldl_cons, List.length_cons, digitsVal] at *
    rw [ih, ih (10 * 0 + digitVal c)]
    ring

theorem digitsVal_append (l₁ l₂ : List Char) :
    digitsVal (l₁ ++ l₂) = digitsVal l₁ * 10 ^ l₂.length + digitsVal l₂ := by
  simp only [digitsVal, List.foldl_append]
  rw [digitsVal_go]
  rfl

theorem digitsVal_singleton (c : Char) : digitsVal [c] = digitVal c := by
  simp [digitsVal]

theorem natDigitsAux_spec : ∀ (fuel n : ℕ), n ≤ fuel →
    digitsVal (natDigitsAux fuel n) = n ∧ natDigitsAux fuel n ≠ []
      ∧ ∀ c ∈ natDigitsAux fuel n, c.isDigit = true := by
  intro fuel
  induction fuel with
  | zero =>
    intro n hn
    have hn0 : n = 0 := by omega
    subst hn0
    refine ⟨by rw [natDigitsAux, digitsVal_singleton]; rfl, by simp [natDigitsAux], ?_⟩
    intro c hc
    rw [natDigitsAux] at hc
    simp only [List.mem_singleton] at hc
    subst hc
    exact digitChar_isDigit _ (by omega)
  | succ fuel ih =>
    intro n hn
    rw [natDigitsAux]
    split
    · refine ⟨?_, by simp, ?_⟩
      · rw [digitsVal_singleton, digitVal_digitChar _ (by omega)]
      · intro c hc
        simp only [List.mem_singleton] at hc
        subst hc
        exact digitChar_isDigit _ (by omega)
    · rename_i h
      have hd : n / 10 ≤ fuel := by
        have hlt10 : n / 10 < n := Nat.div_lt_self (by omega) (by omega)
        omega
      obtain ⟨hv, -, hdig⟩ := ih (n / 10) hd
      refine ⟨?_, by simp, ?_⟩
      · rw [digitsVal_append, hv, digitsVal_singleton, digitVal_digitChar _ (Nat.mod_lt _ (by omega))]
        simp only [List.length_singleton, pow_one]
        omega
      · intro c hc
        rcases List.mem_append.mp hc with h1 | h2
        · exact hdig c h1
        · simp only [List.mem_singleton] at h2
          subst h2
          exact digitChar_isDigit _ (Nat.mod_lt _ (by omega))

theorem natDigits_spec (n : ℕ) :
    digitsVal (natDigits n) = n ∧ natDigits n ≠ [] ∧ ∀ c ∈ natDigits n, c.isDigit = true :=
  natDigitsAux_spec n n le_rfl

theorem padDigits_spec (p : ℕ) : ∀ n : ℕ,
    digitsVal (padDigits n p) = n % 10 ^ p ∧ (padDigits n p).length = p ∧
      ∀ c ∈ padDigits n p, c.isDigit = true := by
  induction p with
  | zero => intro n; simp [padDigits, digitsVal, Nat.mod_one]
  | succ p ih =>
    intro n
    obtain ⟨hv, hl, hdig⟩ := ih (n / 10)
    refine ⟨?_, ?_, ?_⟩
    · rw [padDigits, digitsVal_append, hv, digitsVal_singleton,
        digitVal_digitChar _ (Nat.mod_lt _ (by omega))]
      simp only [List.length_singleton, pow_one]
      rw [pow_succ, mul_comm (10 ^ p) 10, Nat.mod_mul]
      ring
    · simp [padDigits, hl]
    · intro c hc
      rw [padDigits] at hc
      rcases List.mem_append.mp hc with h1 | h2
      · exact hdig c h1
      · simp only [List.mem_singleton] at h2
        subst h2
        exact digitChar_isDigit _ (Nat.mod_lt _ (by omega))

theorem pyRound_int (n : ℤ) : pyRound (n : ℚ) = n := by
  unfold pyRound
  rw [Int.fract_intCast]
  norm_num

theorem pyRound_of_den_one (q : ℚ) (h : q.den = 1) : (pyRound q : ℚ) = q := by
  have : q = (q.num : ℚ) := by
    conv_lhs => rw [← Rat.num_div_den q]
    rw [h]
    simp
  rw [this, pyRound_int]

theorem length_dropWhile_le (p : Char → Bool) (l : List Char) :
    (l.dropWhile p).length ≤ l.length := by
  induction l with
  | nil => simp
  | cons a l ih =>
    rw [List.dropWhile_cons]
    split
    · exact le_trans ih (by simp)
    · simp

/-- Helper: `takeWhile` runs through a prefix every element of which satisfies `p`. -/
theorem takeWhile_all_append (p : Char → Bool) (l₁ l₂ : List Char)
    (h : ∀ a ∈ l₁, p a = true) :
    (l₁ ++ l₂).takeWhile p = l₁ ++ l₂.takeWhile p := by
  induction l₁ with
  | nil => simp
  | cons a l ih =>
    have ha := h a (by simp)
    simp [List.takeWhile_cons, ha, ih (fun b hb => h b (by simp [hb]))]

/-- Helper: `dropWhile` drops a prefix every element of which satisfies `p`. -/
theorem dropWhile_all_append (p : Char → Bool) (l₁ l₂ : List Char)
    (h : ∀ a ∈ l₁, p a = true) :
    (l₁ ++ l₂).dropWhile p = l₂.dropWhile p := by
  induction l₁ with
  | nil => simp
  | cons a l ih =>
    have ha := h a (by simp)
    simp [List.dropWhile_cons, ha, ih (fun b hb => h b (by simp [hb]))]

theorem takeWhile_cons_neg (p : Char → Bool) (a : Char) (l : List Char) (h : p a = false) :
    (a :: l).takeWhile p = [] := by
  simp [List.takeWhile_cons, h]

theorem dropWhile_cons_neg (p : Char → Bool) (a : Char) (l : List Char) (h : p a = false) :
    (a :: l).dropWhile p = a :: l := by
  simp [List.dropWhile_cons, h]

theorem takeWhile_digit_stopper (s : PyStr) (h : numStopper s) :
    s.takeWhile Char.isDigit = [] := by
  rcases h with rfl | ⟨c, cs, rfl, hc, _⟩
  · rfl
  · exact takeWhile_cons_neg _ _ _ hc

/-- The `%.Nf` output of a nonnegative rational parses back (after whitespace,
    before any stopper tail) to the rounded value `round(q * 10^N) / 10^N`. -/
theorem readLeadingFloat_fmt (ws : PyStr) (q : ℚ) (prec : ℕ) (tail : PyStr)
    (hws : ∀ c ∈ ws, isPySpace c = true) (hq : 0 ≤ q)
    (hprec : 0 < prec) (htail : numStopper tail) :
    readLeadingFloat (ws ++ fmtRat q prec ++ tail)
      = some (((pyRound (q * 10 ^ prec)).toNat : ℚ) / 10 ^ prec) := by
  have habs : |q| = q := abs_of_nonneg hq
  set m : ℤ := pyRound (|q| * 10 ^ prec) with hm
  have hgoal : pyRound (q * 10 ^ prec) = m := by rw [hm, habs]
  set n : ℕ := m.toNat with hn
  have hsign : ¬ q < 0 := not_lt.mpr hq
  obtain ⟨hv1, hne1, hdig1⟩ := natDigits_spec (n / 10 ^ prec)
  obtain ⟨hv2, hl2, hdig2⟩ := padDigits_spec prec (n % 10 ^ prec)
  have hfmt : fmtRat q prec = natDigits (n / 10 ^ prec) ++ '.' :: padDigits (n % 10 ^ prec) prec := by
    simp only [fmtRat, if_neg hsign, List.nil_append, ← hm, ← hn]
  rw [hfmt, readLeadingFloat]
  have hrest : (ws ++ (natDigits (n / 10 ^ prec) ++ '.' :: padDigits (n % 10 ^ prec) prec) ++ tail).dropWhile
      isPySpace = natDigits (n / 10 ^ prec) ++ '.' :: padDigits (n % 10 ^ prec) prec ++ tail := by
    rw [List.append_assoc, dropWhile_all_append _ _ _ hws]
    obtain ⟨c, cs, hcs⟩ := List.exists_cons_of_ne_nil hne1
    rw [hcs]
    simp only [List.cons_append, List.append_assoc]
    exact dropWhile_cons_neg _ _ _ (not_pySpace_of_isDigit (hdig1 c (by rw [hcs]; simp)))
  simp only [hrest]
  have hd1 : (natDigits (n / 10 ^ prec) ++ '.' :: padDigits (n % 10 ^ prec) prec ++ tail).takeWhile
      Char.isDigit = natDigits (n / 10 ^ prec) := by
    rw [List.append_assoc, takeWhile_all_append _ _ _ hdig1]
    rw [show ('.' :: padDigits (n % 10 ^ prec) prec ++ tail : PyStr)
        = '.' :: (padDigits (n % 10 ^ prec) prec ++ tail) from by simp,
      takeWhile_cons_neg Char.isDigit '.' (padDigits (n % 10 ^ prec) prec ++ tail) (by decide)]
    simp
  have hd1' : (natDigits (n / 10 ^ prec) ++ '.' :: padDigits (n % 10 ^ prec) prec ++ tail).dropWhile
      Char.isDigit = '.' :: (padDigits (n % 10 ^ prec) prec ++ tail) := by
    rw [List.append_assoc, dropWhile_all_append _ _ _ hdig1]
    rw [show ('.' :: padDigits (n % 10 ^ prec) prec ++ tail : PyStr)
        = '.' :: (padDigits (n % 10 ^ prec) prec ++ tail) from by simp,
      dropWhile_cons_neg Char.isDigit '.' (padDigits (n % 10 ^ prec) prec ++ tail) (by decide)]
  simp only [hd1, hd1']
  have hd2 : (padDigits (n % 10 ^ prec) prec ++ tail).takeWhile Char.isDigit
      = padDigits (n % 10 ^ prec) prec := by
    rw [takeWhile_all_append _ _ _ hdig2, takeWhile_digit_stopper _ htail]
    simp
  simp only [hd2]
  have hd2ne : padDigits (n % 10 ^ prec) prec ≠ [] := by
    intro hnil
    rw [hnil] at hl2
    simp at hl2
    omega
  rw [if_pos hd2ne]
  congr 1
  have hmod : n % 10 ^ prec % 10 ^ prec = n % 10 ^ prec :=
    Nat.mod_eq_of_lt (Nat.mod_lt _ (by positivity))
  rw [hv1, hv2, hl2, hmod, hgoal]
  have h10 : (10 : ℚ) ^ prec ≠ 0 := by positivity
  have key : ((n / 10 ^ prec : ℕ) : ℚ) * 10 ^ prec + ((n % 10 ^ prec : ℕ) : ℚ) = (n : ℚ) := by
    have h := Nat.div_add_mod n (10 ^ prec)
    rw [Nat.mul_comm] at h
    exact_mod_cast h
  rw [← hn]
  field_simp
  linarith [key]

/-- The leading-whitespace prefix of a formatted delay line is exactly the
    whitespace written before the number. -/
theorem leadingSpaces_ws_fmt (ws : PyStr) (q : ℚ) (prec : ℕ) (tail : PyStr)
    (hws : ∀ c ∈ ws, isPySpace c = true) :
    leadingSpaces (ws ++ fmtRat q prec ++ tail) = ws := by
  rw [leadingSpaces, List.append_assoc, takeWhile_all_append _ _ _ hws]
  have : (fmtRat q prec ++ tail).takeWhile isPySpace = [] := by
    rw [fmtRat]
    split
    · simp only [List.cons_append]
      exact takeWhile_cons_neg _ '-' _ (by decide)
    · obtain ⟨-, hne, hdig⟩ := natDigits_spec
        (((pyRound (|q| * (10 : ℚ) ^ prec)).toNat) / 10 ^ prec)
      obtain ⟨c, cs, hcs⟩ := List.exists_cons_of_ne_nil hne
      simp only [List.nil_append, hcs, List.cons_append]
      exact takeWhile_cons_neg _ c _
        (not_pySpace_of_isDigit (hdig c (by rw [hcs]; simp)))
  rw [this, List.append_nil]

/-- `%.Nf` output of a nonnegative rational that is exact at `N` decimals parses
    back (after whitespace, before any stopper tail) to the same rational. -/
theorem readLeadingFloat_roundtrip (ws : PyStr) (q : ℚ) (prec : ℕ) (tail : PyStr)
    (hws : ∀ c ∈ ws, isPySpace c = true) (hq : 0 ≤ q) (hden : (q * 10 ^ prec).den = 1)
    (hprec : 0 < prec) (htail : numStopper tail) :
    readLeadingFloat (ws ++ fmtRat q prec ++ tail) = some q := by
  rw [readLeadingFloat_fmt ws q prec tail hws hq hprec htail]
  congr 1
  have hpr : (pyRound (q * 10 ^ prec) : ℚ) = q * 10 ^ prec := pyRound_of_den_one _ hden
  have hm0 : 0 ≤ pyRound (q * 10 ^ prec) := by
    have h0 : (0 : ℚ) ≤ q * 10 ^ prec := by positivity
    exact_mod_cast hpr ▸ h0
  have hcast : (((pyRound (q * 10 ^ prec)).toNat : ℕ) : ℚ) = q * 10 ^ prec := by
    have h1 : (((pyRound (q * 10 ^ prec)).toNat : ℕ) : ℤ) = pyRound (q * 10 ^ prec) :=
      Int.toNat_of_nonneg hm0
    have h2 : ((((pyRound (q * 10 ^ prec)).toNat : ℕ) : ℤ) : ℚ)
        = ((pyRound (q * 10 ^ prec) : ℤ) : ℚ) := by exact_mod_cast h1
    push_cast at h2
    rw [h2, hpr]
  rw [hcast]
  have h10 : (10 : ℚ) ^ prec ≠ 0 := by positivity
  field_simp

theorem pairwise_map_snd : ∀ l : List α, (pairwise l).map Prod.snd = l.tail
  | [] => rfl
  | [_] => rfl
  | a :: b :: r => by
    have ih := pairwise_map_snd (b :: r)
    simp only [pairwise, List.tail_cons] at ih ⊢
    rw [List.zip_cons_cons, List.map_cons, ih]

theorem segmentsLoop_join (tolerance : ℚ) :
    ∀ (pairs : List (WordTiming × WordTiming)) (block : List WordTiming),
      ((segmentsLoop tolerance block pairs).map Segment.words).flatten
        = block ++ pairs.map Prod.snd := by
  intro pairs
  induction pairs with
  | nil => intro block; simp [segmentsLoop]
  | cons pc rest ih =>
    intro block
    obtain ⟨prev, curr⟩ := pc
    rw [segmentsLoop]
    split
    · rw [ih]
      simp
    · simp only [List.map_cons, List.flatten_cons, ih]
      simp

/-- Claim C3: concatenating, in order, the word lists of all segments returned
    by `get_segments` reproduces the transcript's word sequence exactly, for
    every transcript and every tolerance. -/
theorem stlr_c3_segments_concat (t : Transcription) (tolerance : ℚ) :
    ((get_segments t tolerance).map Segment.words).flatten = t := by
  match t with
  | [] => rfl
  | [w] => rfl
  | a :: b :: r =>
    show ((segmentsLoop tolerance [a] (pairwise (a :: b :: r))).map Segment.words).flatten = _
    rw [segmentsLoop_join, pairwise_map_snd]
    rfl

theorem linked_pairwise : ∀ (l : List WordTiming) (w : WordTiming), linked w (pairwise (w :: l))
  | [], _ => trivial
  | b :: r, w => by
    show linked w ((w, b) :: pairwise (b :: r))
    exact ⟨rfl, linked_pairwise r b⟩

theorem segmentsLoop_length (tolerance : ℚ) :
    ∀ (pairs : List (WordTiming × WordTiming)) (block : List WordTiming),
      (segmentsLoop tolerance block pairs).length
        = 1 + (pairs.filter (fun pc => tolerance < pc.2.start - pc.1.«end»)).length := by
  intro pairs
  induction pairs with
  | nil => intro block; simp [segmentsLoop]
  | cons pc rest ih =>
    intro block
    obtain ⟨prev, curr⟩ := pc
    rw [segmentsLoop]
    split
    · rename_i hle
      rw [ih, List.filter_cons]
      have : ¬ tolerance < curr.start - prev.«end» := not_lt.mpr hle
      simp [this]
    · rename_i hgt
      rw [List.length_cons, ih, List.filter_cons]
      have : tolerance < curr.start - prev.«end» := lt_of_not_le hgt
      simp [this]
      omega

theorem segmentsLoop_chain (tolerance : ℚ) :
    ∀ (pairs : List (WordTiming × WordTiming)) (block : List WordTiming) (w : WordTiming),
      block.getLast? = some w → linked w pairs →
      block.Chain' (fun a b => b.start - a.«end» ≤ tolerance) →
      ∀ s ∈ segmentsLoop tolerance block pairs,
        s.words.Chain' (fun a b => b.start - a.«end» ≤ tolerance) := by
  intro pairs
  induction pairs with
  | nil =>
    intro block w _ _ hchain s hs
    simp only [segmentsLoop, List.mem_singleton] at hs
    subst hs
    exact hchain
  | cons pc rest ih =>
    intro block w hlast hlink hchain s hs
    obtain ⟨prev, curr⟩ := pc
    obtain ⟨hp, hlink'⟩ := hlink
    subst hp
    rw [segmentsLoop] at hs
    split at hs
    · rename_i hle
      refine ih (block ++ [curr]) curr (by simp) hlink' ?_ s hs
      rw [List.chain'_append]
      refine ⟨hchain, List.chain'_singleton _, ?_⟩
      intro x hx y hy
      rw [hlast] at hx
      simp only [Option.mem_def, Option.some.injEq] at hx
      simp only [List.head?_cons, Option.mem_def, Option.some.injEq] at hy
      subst hx; subst hy
      exact hle
    · rcases List.mem_cons.mp hs with hs1 | hs2
      · subst hs1
        exact hchain
      · exact ih [curr] curr rfl hlink' (List.chain'_singleton _) s hs2

/-- Claim C7: `get_segments` starts a new segment exactly at those adjacent
    pairs whose gap `next.start - prev.end` is strictly greater than the
    tolerance: the number of segments is one plus the number of strict-gap
    adjacencies, and inside every returned segment all adjacent gaps are at
    most the tolerance (so a gap exactly equal to the tolerance never splits). -/
theorem stlr_c7_segment_boundaries (t : Transcription) (tolerance : ℚ) :
    (get_segments t tolerance).length
        = 1 + ((pairwise t).filter (fun pc => tolerance < pc.2.start - pc.1.«end»)).length
      ∧ ∀ s ∈ get_segments t tolerance,
          s.words.Chain' (fun a b => b.start - a.«end» ≤ tolerance) := by
  match t with
  | [] =>
    refine ⟨rfl, ?_⟩
    intro s hs
    simp only [get_segments, List.mem_singleton] at hs
    subst hs
    simp
  | [w] =>
    refine ⟨rfl, ?_⟩
    intro s hs
    simp only [get_segments, List.mem_singleton] at hs
    subst hs
    simp
  | a :: b :: r =>
    have hunfold : get_segments (a :: b :: r) tolerance
        = segmentsLoop tolerance [a] (pairwise (a :: b :: r)) := rfl
    rw [hunfold]
    exact ⟨segmentsLoop_length tolerance _ _,
      segmentsLoop_chain tolerance _ _ a rfl (linked_pairwise (b :: r) a)
        (List.chain'_singleton _)⟩

/-- Witness for C7 at a concrete transcript: a two-word transcript with a gap
    exactly equal to the tolerance yields one single segment. -/
theorem stlr_c7_segment_boundaries_witness :
    (get_segments [⟨['a'], 0, 1, 0⟩, ⟨['b'], 3/2, 2, 0⟩] (1/2)).length = 1
      ∧ ∀ s ∈ get_segments [⟨['a'], 0, 1, 0⟩, ⟨['b'], 3/2, 2, 0⟩] (1/2),
          s.words.Chain' (fun a b => b.start - a.«end» ≤ (1/2 : ℚ)) := by
  have h := stlr_c7_segment_boundaries [⟨['a'], 0, 1, 0⟩, ⟨['b'], 3/2, 2, 0⟩] (1/2)
  refine ⟨?_, h.2⟩
  rw [h.1]
  decide

theorem segmentsLoop_words_ne_nil (tolerance : ℚ) :
    ∀ (pairs : List (WordTiming × WordTiming)) (block : List WordTiming),
      block ≠ [] → ∀ s ∈ segmentsLoop tolerance block pairs, s.words ≠ [] := by
  intro pairs
  induction pairs with
  | nil =>
    intro block hb s hs
    simp only [segmentsLoop, List.mem_singleton] at hs
    subst hs
    exact hb
  | cons pc rest ih =>
    intro block hb s hs
    obtain ⟨prev, curr⟩ := pc
    rw [segmentsLoop] at hs
    split at hs
    · exact ih _ (by simp) s hs
    · rcases List.mem_cons.mp hs with hs1 | hs2
      · subst hs1; exact hb
      · exact ih [curr] (by simp) s hs2

/-- Claim C10: a segment's derived start/end/duration are defined exactly when
    its word list is non-empty; `get_segments` of the empty transcript is one
    segment with an empty word list, while every segment of a non-empty
    transcript has non-empty words. -/
theorem stlr_c10_segment_partiality :
    (∀ tolerance : ℚ, get_segments [] tolerance = [⟨[], 0⟩])
      ∧ (∀ (t : Transcription) (tolerance : ℚ), t ≠ [] →
          ∀ s ∈ get_segments t tolerance, s.words ≠ [])
      ∧ (∀ s : Segment, (s.start?.isSome ↔ s.words ≠ [])
          ∧ (s.end?.isSome ↔ s.words ≠ []) ∧ (s.duration?.isSome ↔ s.words ≠ [])) := by
  refine ⟨fun tolerance => rfl, ?_, ?_⟩
  · intro t tolerance ht s hs
    match t, hs with
    | [w], hs =>
      simp only [get_segments, List.mem_singleton] at hs
      subst hs
      simp
    | a :: b :: r, hs =>
      have hunfold : get_segments (a :: b :: r) tolerance
          = segmentsLoop tolerance [a] (pairwise (a :: b :: r)) := rfl
      rw [hunfold] at hs
      exact segmentsLoop_words_ne_nil tolerance _ _ (by simp) s hs
  · intro s
    match hw : s.words with
    | [] =>
      simp [Segment.start?, Segment.end?, Segment.duration?, hw, List.min?, List.max?]
    | a :: l =>
      simp [Segment.start?, Segment.end?, Segment.duration?, hw, List.min?_cons,
        List.max?_cons]

/-- Witness for C10 at concrete inputs. -/
theorem stlr_c10_segment_partiality_witness :
    ([⟨['h'], 0, 1, 0⟩] : Transcription) ≠ []
      ∧ ∀ s ∈ get_segments [⟨['h'], 0, 1, 0⟩] 0, s.words ≠ [] :=
  ⟨by decide, stlr_c10_segment_partiality.2.1 [⟨['h'], 0, 1, 0⟩] 0 (by decide)⟩

/-- Claim C1 states that the equal-length fast path outputs words whose text
    comes from recognizer A (`textWords[i]`) and timing from recognizer B.  The
    code instead stores recognizer B's `WordTiming` objects unchanged, so the
    output text is B's.  This theorem evaluates the embedded reconciler at the
    failing input: whisper text `"hello world"`, vosk words `"goodbye"`/`"earth"`
    — every output word keeps the vosk text. -/
theorem stlr_c1_equal_path_keeps_vosk_text :
    reconcile ⟨"hello world".data, [⟨"hello world".data, []⟩]⟩
        [⟨"goodbye".data, 0, 2/5⟩, ⟨"earth".data, 1/2, 9/10⟩] ("assisted".data)
      = some ⟨"hello world".data,
          [⟨"hello world".data,
            [⟨"goodbye".data, 0, 2/5⟩, ⟨"earth".data, 1/2, 9/10⟩]⟩]⟩
      ∧ ("goodbye".data : PyStr) ≠ "hello".data := by
  constructor
  · decide
  · decide

theorem reconcileOneLoop_zero (wseg vseg : PyStr) (rest : List (PyStr × PyStr)) (st : RecState)
    (h : (splitWs vseg).length = 0) :
    reconcileOneLoop ((wseg, vseg) :: rest) st
      = reconcileOneLoop rest ⟨st.trueTranscription.drop (splitWs wseg).length, st.timings⟩ := by
  simp [reconcileOneLoop, h]

theorem take_ne_nil_of_pos {l : List SWWord} {n : ℕ} (hn : n ≠ 0) (hl : l ≠ []) :
    l.take n ≠ [] := by
  match l, n with
  | [], _ => exact absurd rfl hl
  | a :: tl, m + 1 => simp

theorem reconcileOneLoop_pos (wseg vseg : PyStr) (rest : List (PyStr × PyStr)) (st : RecState)
    (hv : (splitWs vseg).length ≠ 0) (ht : st.timings ≠ []) :
    ∃ fst lst,
      (st.timings.take (splitWs vseg).length).head? = some fst
      ∧ (st.timings.take (splitWs vseg).length).getLast? = some lst
      ∧ reconcileOneLoop ((wseg, vseg) :: rest) st
        = (reconcileOneLoop rest
            ⟨st.trueTranscription.drop (splitWs wseg).length,
              st.timings.drop (splitWs vseg).length⟩).map
            (fun p => (⟨joinSpace (st.trueTranscription.take (splitWs wseg).length),
              fst.start, lst.«end»⟩ :: p.1, p.2)) := by
  have htake := take_ne_nil_of_pos hv ht
  obtain ⟨f, hf⟩ : ∃ f, (st.timings.take (splitWs vseg).length).head? = some f := by
    match hx : (st.timings.take (splitWs vseg).length) with
    | [] => exact absurd hx htake
    | a :: l => exact ⟨a, rfl⟩
  obtain ⟨lw, hlw⟩ : ∃ lw, (st.timings.take (splitWs vseg).length).getLast? = some lw := by
    match hx : (st.timings.take (splitWs vseg).length) with
    | [] => exact absurd hx htake
    | a :: tl => exact ⟨(a :: tl).getLast (by simp), List.getLast?_eq_getLast _ _⟩
  refine ⟨f, lw, hf, hlw, ?_⟩
  rw [reconcileOneLoop]
  simp only [if_neg hv, hf, hlw]

/-- Claim C8: in a non-matching run, a declared sub-group with timing-count
    zero contributes no output word and raises no error while still consuming
    its declared word-count from the A stream; a sub-group with nonzero
    timing-count yields one combined word spanning the first consumed timing's
    start to the last consumed timing's end; and under sufficient timings the
    number of output words equals the number of nonzero-timing sub-groups, with
    the A stream advanced by the total declared word-count. -/
theorem stlr_c8_zero_timing_subgroups :
    (∀ (wseg vseg : PyStr) (rest : List (PyStr × PyStr)) (st : RecState),
        (splitWs vseg).length = 0 →
        reconcileOneLoop ((wseg, vseg) :: rest) st
          = reconcileOneLoop rest ⟨st.trueTranscription.drop (splitWs wseg).length, st.timings⟩)
    ∧ (∀ (wseg vseg : PyStr) (rest : List (PyStr × PyStr)) (st : RecState),
        (splitWs vseg).length ≠ 0 → st.timings ≠ [] →
        ∃ fst lst,
          (st.timings.take (splitWs vseg).length).head? = some fst
          ∧ (st.timings.take (splitWs vseg).length).getLast? = some lst
          ∧ reconcileOneLoop ((wseg, vseg) :: rest) st
            = (reconcileOneLoop rest
                ⟨st.trueTranscription.drop (splitWs wseg).length,
                  st.timings.drop (splitWs vseg).length⟩).map
                (fun p => (⟨joinSpace (st.trueTranscription.take (splitWs wseg).length),
                  fst.start, lst.«end»⟩ :: p.1, p.2)))
    ∧ (∀ (groups : List (PyStr × PyStr)) (st : RecState),
        (groups.map (fun g => (splitWs g.2).length)).sum ≤ st.timings.length →
        ∃ out st2, reconcileOneLoop groups st = some (out, st2)
          ∧ out.length = (groups.filter (fun g => (splitWs g.2).length ≠ 0)).length
          ∧ st2.trueTranscription
              = st.trueTranscription.drop ((groups.map (fun g => (splitWs g.1).length)).sum)) := by
  refine ⟨reconcileOneLoop_zero, reconcileOneLoop_pos, ?_⟩
  intro groups
  induction groups with
  | nil =>
    intro st _
    exact ⟨[], st, rfl, rfl, by simp⟩
  | cons g rest ih =>
    intro st hsum
    obtain ⟨wseg, vseg⟩ := g
    simp only [List.map_cons, List.sum_cons] at hsum
    by_cases hv : (splitWs vseg).length = 0
    · rw [reconcileOneLoop_zero wseg vseg rest st hv]
      obtain ⟨out, st2, heq, hlen, htr⟩ :=
        ih ⟨st.trueTranscription.drop (splitWs wseg).length, st.timings⟩ (by dsimp only; omega)
      refine ⟨out, st2, heq, ?_, ?_⟩
      · rw [hlen, List.filter_cons]
        simp [hv]
      · rw [htr]
        simp only [List.drop_drop]
        rw [List.map_cons, List.sum_cons, Nat.add_comm]
    · have ht : st.timings ≠ [] := by
        intro hnil
        rw [hnil] at hsum
        simp only [List.length_nil, Nat.le_zero] at hsum
        omega
      obtain ⟨f, lw, _, _, heq⟩ := reconcileOneLoop_pos wseg vseg rest st hv ht
      rw [heq]
      obtain ⟨out, st2, heq2, hlen, htr⟩ :=
        ih ⟨st.trueTranscription.drop (splitWs wseg).length,
          st.timings.drop (splitWs vseg).length⟩ (by simp [List.length_drop]; omega)
      rw [heq2]
      refine ⟨_, st2, rfl, ?_, ?_⟩
      · simp only [List.length_cons, hlen, List.filter_cons]
        simp [hv]
      · rw [htr]
        simp only [List.drop_drop]
        rw [List.map_cons, List.sum_cons, Nat.add_comm]

/-- Witness for C8, instantiating the sufficient-timings conjunct at the spec's
    mismatched-reconciliation example ("one two three / four", sub-counts 3 and
    1, four timings). -/
theorem stlr_c8_zero_timing_subgroups_witness :
    (([(("one two three").data, ("a b c").data), (("four").data, ("d").data)].map
        (fun g : PyStr × PyStr => (splitWs g.2).length)).sum
      ≤ ([⟨"a".data, 0, 1/4⟩, ⟨"b".data, 1/4, 1/2⟩, ⟨"c".data, 1/2, 3/4⟩,
          ⟨"d".data, 3/4, 1⟩] : List SWWord).length)
    ∧ ∃ out st2,
        reconcileOneLoop [(("one two three").data, ("a b c").data), (("four").data, ("d").data)]
            ⟨["one".data, "two".data, "three".data, "four".data],
              [⟨"a".data, 0, 1/4⟩, ⟨"b".data, 1/4, 1/2⟩, ⟨"c".data, 1/2, 3/4⟩,
                ⟨"d".data, 3/4, 1⟩]⟩ = some (out, st2)
          ∧ out.length
              = ([(("one two three").data, ("a b c").data),
                  (("four").data, ("d").data)].filter
                    (fun g : PyStr × PyStr => (splitWs g.2).length ≠ 0)).length
          ∧ st2.trueTranscription
              = (["one".data, "two".data, "three".data, "four".data] : List PyStr).drop
                  (([(("one two three").data, ("a b c").data), (("four").data, ("d").data)].map
                      (fun g : PyStr × PyStr => (splitWs g.1).length)).sum) :=
  ⟨by decide, stlr_c8_zero_timing_subgroups.2.2
    [(("one two three").data, ("a b c").data), (("four").data, ("d").data)]
    ⟨["one".data, "two".data, "three".data, "four".data],
      [⟨"a".data, 0, 1/4⟩, ⟨"b".data, 1/4, 1/2⟩, ⟨"c".data, 1/2, 3/4⟩, ⟨"d".data, 3/4, 1⟩]⟩
    (by decide)⟩

theorem mem_insertByTime (x y : BoundEvent) (l : List BoundEvent) :
    y ∈ insertByTime x l ↔ y = x ∨ y ∈ l := by
  induction l with
  | nil => simp [insertByTime]
  | cons z zs ih =>
    rw [insertByTime]
    split
    · simp only [List.mem_cons, ih]
      tauto
    · simp only [List.mem_cons]

theorem mem_sortByTime (y : BoundEvent) (l : List BoundEvent) :
    y ∈ sortByTime l ↔ y ∈ l := by
  induction l with
  | nil => simp [sortByTime]
  | cons x xs ih =>
    rw [sortByTime, mem_insertByTime]
    simp [ih]

theorem sorted_insertByTime (x : BoundEvent) (l : List BoundEvent)
    (h : l.Pairwise (fun a b => a.2.1 ≤ b.2.1)) :
    (insertByTime x l).Pairwise (fun a b => a.2.1 ≤ b.2.1) := by
  induction l with
  | nil => simp [insertByTime]
  | cons z zs ih =>
    rw [insertByTime]
    rw [List.pairwise_cons] at h
    split
    · rename_i hz
      rw [List.pairwise_cons]
      refine ⟨?_, ih h.2⟩
      intro a ha
      rcases (mem_insertByTime x a zs).mp ha with rfl | hmem
      · exact hz
      · exact h.1 a hmem
    · rename_i hz
      rw [List.pairwise_cons]
      refine ⟨?_, List.pairwise_cons.mpr h⟩
      intro a ha
      rcases List.mem_cons.mp ha with rfl | hmem
      · exact le_of_lt (lt_of_not_le hz)
      · exact le_trans (le_of_lt (lt_of_not_le hz)) (h.1 a hmem)

theorem sorted_sortByTime (l : List BoundEvent) :
    (sortByTime l).Pairwise (fun a b => a.2.1 ≤ b.2.1) := by
  induction l with
  | nil => simp [sortByTime]
  | cons x xs ih => exact sorted_insertByTime x _ ih

/-- Claim C9 (amended): `annotate`'s terse boundary list holds exactly the words
    whose start lies in the half-open window `[start, end)`, time-ordered; the
    verbose list additionally holds exactly the words whose end lies in
    `(start, end]` — not `[start, end)` as claimed — each tagged with its kind
    and timestamp, merged and time-ordered. -/
theorem stlr_c9_annotation_window (t : Transcription) (s e : ℚ) :
    (∀ x, x ∈ terseBoundaries t s e
      ↔ ∃ w ∈ t, x = (w.word, w.start, ("start".data : PyStr)) ∧ s ≤ w.start ∧ w.start < e)
    ∧ (terseBoundaries t s e).Pairwise (fun a b => a.2.1 ≤ b.2.1)
    ∧ (∀ x, x ∈ verboseBoundaries t s e
      ↔ (∃ w ∈ t, x = (w.word, w.start, ("start".data : PyStr)) ∧ s ≤ w.start ∧ w.start < e)
        ∨ (∃ w ∈ t, x = (w.word, w.«end», ("end".data : PyStr)) ∧ s < w.«end» ∧ w.«end» ≤ e))
    ∧ (verboseBoundaries t s e).Pairwise (fun a b => a.2.1 ≤ b.2.1) := by
  have hstart : ∀ x, x ∈ startEvents t s e
      ↔ ∃ w ∈ t, x = (w.word, w.start, ("start".data : PyStr)) ∧ s ≤ w.start ∧ w.start < e := by
    intro x
    simp only [startEvents, List.mem_map, List.mem_filter, Bool.and_eq_true, decide_eq_true_eq]
    constructor
    · rintro ⟨w, ⟨hw, h1, h2⟩, rfl⟩
      exact ⟨w, hw, rfl, h1, h2⟩
    · rintro ⟨w, hw, rfl, h1, h2⟩
      exact ⟨w, ⟨hw, h1, h2⟩, rfl⟩
  have hend : ∀ x, x ∈ endEvents t s e
      ↔ ∃ w ∈ t, x = (w.word, w.«end», ("end".data : PyStr)) ∧ s < w.«end» ∧ w.«end» ≤ e := by
    intro x
    simp only [endEvents, List.mem_map, List.mem_filter, Bool.and_eq_true, decide_eq_true_eq]
    constructor
    · rintro ⟨w, ⟨hw, h1, h2⟩, rfl⟩
      exact ⟨w, hw, rfl, h1, h2⟩
    · rintro ⟨w, hw, rfl, h1, h2⟩
      exact ⟨w, ⟨hw, h1, h2⟩, rfl⟩
  refine ⟨?_, sorted_sortByTime _, ?_, sorted_sortByTime _⟩
  · intro x
    rw [terseBoundaries, mem_sortByTime]
    exact hstart x
  · intro x
    rw [verboseBoundaries, mem_sortByTime, List.mem_append, terseBoundaries, mem_sortByTime]
    rw [hstart, hend]

/-- Counterexample to C9 as stated: for the one-word transcript with word end
    at time 1 and window `[1, 2)`, the claimed rule (`end ∈ [start, end)`)
    includes the end event, but the code (`start < end <= end`) excludes it:
    the verbose boundary list is empty. -/
theorem stlr_c9_annotation_window_counterexample :
    ((1 : ℚ) ≤ 1 ∧ (1 : ℚ) < 2)
      ∧ verboseBoundaries [⟨"w".data, 0, 1, 0⟩] 1 2 = [] := by
  constructor
  · constructor
    · decide
    · decide
  · decide

theorem readLeadingFloat_nonneg (l : PyStr) (q : ℚ) (h : readLeadingFloat l = some q) :
    0 ≤ q := by
  rw [readLeadingFloat] at h
  dsimp only at h
  split at h
  · split at h
    · rw [Option.some_inj] at h
      subst h
      positivity
    · split at h
      · rw [Option.some_inj] at h
        subst h
        positivity
      · exact absurd h (by simp)
  · split at h
    · rw [Option.some_inj] at h
      subst h
      positivity
    · exact absurd h (by simp)

theorem atlDuration_nil : atlDuration [] = 0 := rfl

theorem atlDuration_cons (l : PyStr) (ls : List PyStr) :
    atlDuration (l :: ls) = (readLeadingFloat l).getD 0 + atlDuration ls := by
  simp [atlDuration]

theorem atlDuration_append (l₁ l₂ : List PyStr) :
    atlDuration (l₁ ++ l₂) = atlDuration l₁ + atlDuration l₂ := by
  simp [atlDuration]

theorem atlDuration_nonneg (lines : List PyStr) : 0 ≤ atlDuration lines := by
  induction lines with
  | nil => simp [atlDuration_nil]
  | cons l ls ih =>
    rw [atlDuration_cons]
    have h0 : 0 ≤ (readLeadingFloat l).getD 0 := by
      match hp : readLeadingFloat l with
      | none => simp
      | some q => simpa using readLeadingFloat_nonneg l q hp
    linarith

theorem atlDuration_of_no_delay (lines : List PyStr)
    (h : ∀ l ∈ lines, readLeadingFloat l = none) : atlDuration lines = 0 := by
  induction lines with
  | nil => rfl
  | cons l ls ih =>
    rw [atlDuration_cons, h l (by simp), ih (fun x hx => h x (by simp [hx]))]
    simp

theorem dropWhile_isSuffix (p : Char → Bool) (l : List Char) : l.dropWhile p <:+ l := by
  induction l with
  | nil => exact ⟨[], rfl⟩
  | cons a l ih =>
    rw [List.dropWhile_cons]
    split
    · obtain ⟨t, ht⟩ := ih
      exact ⟨a :: t, by rw [List.cons_append, ht]⟩
    · exact ⟨[], rfl⟩

theorem stripRight_isPrefix (s : PyStr) : stripRight s <+: s := by
  obtain ⟨t, ht⟩ := dropWhile_isSuffix isPySpace s.reverse
  refine ⟨t.reverse, ?_⟩
  rw [stripRight, ← List.reverse_append, ht, List.reverse_reverse]

theorem stripRight_cons_start (c : Char) (s : PyStr) :
    stripRight (c :: s) = [] ∨ ∃ tl, stripRight (c :: s) = c :: tl := by
  match hx : stripRight (c :: s) with
  | [] => exact Or.inl rfl
  | d :: tl =>
    right
    have h := stripRight_isPrefix (c :: s)
    rw [hx] at h
    obtain ⟨t, ht⟩ := h
    simp only [List.cons_append, List.cons.injEq] at ht
    exact ⟨tl, by rw [ht.1]⟩

theorem numStopper_annotate (t : Transcription) (s e : ℚ) (vb asst : Bool) :
    numStopper (annotate t s e vb asst) := by
  rw [annotate]
  split
  · exact Or.inl rfl
  · split
    · dsimp only
      split
      · exact Or.inr ⟨' ', _, rfl, by decide, by decide⟩
      · exact Or.inl rfl
    · have hshape : (("  # animation time: ").data) ++ fmtRat s 3 ++ (" → ".data) ++ fmtRat e 3
          ++ [' ']
          ++ List.intercalate [' '] ((verboseBoundaries t s e).map (fun b =>
              ("| ".data) ++ reprStr b.1 ++ (" [".data) ++ b.2.2 ++ (" @ ".data)
                ++ fmtRat b.2.1 2 ++ [']']))
          = ' ' :: ((' ' :: '#' :: ' '
              :: ("animation time: ").data) ++ fmtRat s 3 ++ (" → ".data) ++ fmtRat e 3
              ++ [' ']
              ++ List.intercalate [' '] ((verboseBoundaries t s e).map (fun b =>
                  ("| ".data) ++ reprStr b.1 ++ (" [".data) ++ b.2.2 ++ (" @ ".data)
                    ++ fmtRat b.2.1 2 ++ [']']))) := rfl
      rw [hshape]
      rcases stripRight_cons_start ' ' _ with h0 | ⟨tl, htl⟩
      · exact Or.inl h0
      · exact Or.inr ⟨' ', tl, htl, by decide, by decide⟩

theorem isAssetLine_assetLine (img : PyStr) : isAssetLine (assetLine img) = true := rfl

theorem readLeadingFloat_assetLine (img : PyStr) : readLeadingFloat (assetLine img) = none := rfl

/-- The first character of a formatted number is a minus sign or a digit. -/
theorem fmtRat_head (q : ℚ) (prec : ℕ) :
    ∃ c rest, fmtRat q prec = c :: rest ∧ isPySpace c = false ∧ c ≠ '"' := by
  by_cases hq : q < 0
  · refine ⟨'-', natDigits ((pyRound (|q| * (10 : ℚ) ^ prec)).toNat / 10 ^ prec)
      ++ '.' :: padDigits ((pyRound (|q| * (10 : ℚ) ^ prec)).toNat % 10 ^ prec) prec,
      ?_, by decide, by decide⟩
    rw [fmtRat, if_pos hq]
    rfl
  · obtain ⟨-, hne, hdig⟩ := natDigits_spec
      ((pyRound (|q| * (10 : ℚ) ^ prec)).toNat / 10 ^ prec)
    obtain ⟨c, cs, hcs⟩ := List.exists_cons_of_ne_nil hne
    have hdigc : c.isDigit = true := hdig c (by rw [hcs]; simp)
    refine ⟨c, cs ++ '.' :: padDigits ((pyRound (|q| * (10 : ℚ) ^ prec)).toNat % 10 ^ prec) prec,
      ?_, not_pySpace_of_isDigit hdigc, ?_⟩
    · rw [fmtRat, if_neg hq, hcs]
      rfl
    · intro hcq
      subst hcq
      exact absurd hdigc (by decide)

/-- A line made of whitespace, a formatted number and a stopper tail is never
    an asset line. -/
theorem isAssetLine_ws_fmt (ws : PyStr) (q : ℚ) (prec : ℕ) (tail : PyStr)
    (hws : ∀ c ∈ ws, isPySpace c = true) :
    isAssetLine (ws ++ fmtRat q prec ++ tail) = false := by
  obtain ⟨c, rest, hfmt, hsp, hq⟩ := fmtRat_head q prec
  rw [isAssetLine, List.append_assoc, dropWhile_all_append _ _ _ hws, hfmt, List.cons_append,
    dropWhile_cons_neg _ _ _ hsp]
  simp [hq]

theorem isAssetLine_delay_line (g : ATLImageGenerator) (time_step time : ℚ) (vb : Bool) :
    isAssetLine (("    ".data) ++ fmtRat time_step 3
      ++ annotate g.transcription time (time + time_step) vb false) = false :=
  isAssetLine_ws_fmt _ _ _ _ (by decide)

theorem frameLines_filter_asset (g : ATLImageGenerator) (ts : ℚ) (vb : Bool) :
    ∀ (times : List ℚ) (idx : ℕ),
      (frameLines g ts vb times idx).filter isAssetLine
        = (List.range times.length).map (fun i => assetLine (g.nextImage (idx + i))) := by
  intro times
  induction times with
  | nil => intro idx; rfl
  | cons time rest ih =>
    intro idx
    rw [frameLines, List.filter_cons, List.filter_cons,
      if_pos (isAssetLine_assetLine _),
      if_neg (by rw [isAssetLine_ws_fmt _ _ _ _ (by decide)]; simp),
      ih (idx + 1)]
    rw [List.length_cons, List.range_succ_eq_map]
    simp only [List.map_cons, List.map_map, Nat.add_zero]
    congr 1
    apply List.map_congr_left
    intro i _
    simp only [Function.comp_apply]
    congr 2
    omega

theorem frameLines_lastAsset (g : ATLImageGenerator) (ts : ℚ) (vb : Bool)
    (times : List ℚ) (idx : ℕ) (h : times ≠ []) :
    lastAssetLine (frameLines g ts vb times idx)
      = some (assetLine (g.nextImage (idx + times.length - 1))) := by
  rw [lastAssetLine, frameLines_filter_asset]
  match times, h with
  | t :: rest, _ =>
    rw [List.length_cons, List.range_succ]
    simp only [List.map_append, List.map_cons, List.map_nil]
    rw [List.getLast?_concat]
    have harith : idx + (rest.length + 1) - 1 = idx + rest.length := by omega
    rw [harith]

theorem frameLines_delay_filter (g : ATLImageGenerator) (ts : ℚ) (vb : Bool) (hts : 0 ≤ ts) :
    ∀ (times : List ℚ) (idx : ℕ),
      ((frameLines g ts vb times idx).filter isDelayLine).length = times.length := by
  intro times
  induction times with
  | nil => intro idx; rfl
  | cons time rest ih =>
    intro idx
    rw [frameLines, List.filter_cons, List.filter_cons]
    have h1 : isDelayLine (assetLine (g.nextImage idx)) = false := by
      rw [isDelayLine, readLeadingFloat_assetLine]
      rfl
    have h2 : isDelayLine (("    ".data) ++ fmtRat ts 3
        ++ annotate g.transcription time (time + ts) vb false) = true := by
      rw [isDelayLine, readLeadingFloat_fmt _ _ _ _ (by decide) hts (by omega)
        (numStopper_annotate _ _ _ _ _)]
      rfl
    simp only [h1, h2, if_true, if_false, Bool.false_eq_true, List.length_cons, ih (idx + 1)]

theorem atlDuration_frameLines (g : ATLImageGenerator) (ts : ℚ) (vb : Bool) (hts : 0 ≤ ts) :
    ∀ (times : List ℚ) (idx : ℕ),
      atlDuration (frameLines g ts vb times idx)
        = (times.length : ℚ) * (((pyRound (ts * 10 ^ 3)).toNat : ℚ) / 10 ^ 3) := by
  intro times
  induction times with
  | nil => intro idx; simp [frameLines, atlDuration_nil]
  | cons time rest ih =>
    intro idx
    rw [frameLines, atlDuration_cons, atlDuration_cons, readLeadingFloat_assetLine,
      readLeadingFloat_fmt _ _ _ _ (by decide) hts (by omega) (numStopper_annotate _ _ _ _ _),
      ih (idx + 1)]
    simp only [Option.getD_none, Option.getD_some, List.length_cons]
    push_cast
    ring

/-- The parsed value of the fixed `0.2`-step delay lines is exactly `1/5`. -/
theorem parsed_fifth : (((pyRound ((1/5 : ℚ) * 10 ^ 3)).toNat : ℚ) / 10 ^ 3) = 1/5 := by
  have h1 : ((1/5 : ℚ) * 10 ^ 3) = ((200 : ℤ) : ℚ) := by norm_num
  rw [h1, pyRound_int, show (200 : ℤ).toNat = 200 from rfl]
  norm_num

theorem afdTimes_length (d start ts : ℚ) : (afdTimes d start ts).length = (⌈d / ts⌉).toNat := by
  rw [afdTimes, List.length_map, List.length_range]

theorem frange_eq (d start ts : ℚ) (hts : ts ≠ 0) :
    frange start (start + d) ts = some (afdTimes d start ts) := by
  rw [frange, if_neg hts, afdTimes]
  congr 3
  ring_nf

/-- Unfolding of `alternate_frames_for_duration` (with ensure-close) for a
    nonzero time step. -/
theorem alternate_frames_eq (g : ATLImageGenerator) (d start ts : ℚ) (vb : Bool) (idx : ℕ)
    (hts : ts ≠ 0) :
    alternate_frames_for_duration g d start ts true vb idx
      = some (if (if (afdTimes d start ts).length = 0 then none
            else some (g.nextImage (idx + (afdTimes d start ts).length - 1)))
            ≠ some g.closed_mouth then
          (frameLines g ts vb (afdTimes d start ts) idx
              ++ [assetLine (g.nextImage (idx + (afdTimes d start ts).length))],
            (if (afdTimes d start ts).length = 0 then none
              else some (g.nextImage (idx + (afdTimes d start ts).length - 1))),
            idx + (afdTimes d start ts).length + 1)
        else
          (frameLines g ts vb (afdTimes d start ts) idx,
            (if (afdTimes d start ts).length = 0 then none
              else some (g.nextImage (idx + (afdTimes d start ts).length - 1))),
            idx + (afdTimes d start ts).length)) := by
  rw [alternate_frames_for_duration, frange_eq d start ts hts]
  simp only [Option.bind_eq_bind, Option.some_bind]
  by_cases hc : (if (afdTimes d start ts).length = 0 then (none : Option PyStr)
      else some (g.nextImage (idx + (afdTimes d start ts).length - 1))) ≠ some g.closed_mouth
  · rw [if_pos ⟨trivial, hc⟩, if_pos hc]
    rfl
  · rw [if_neg (fun h => hc h.2), if_neg hc]
    rfl

/-- The frames of `alternate_frames_for_duration`: delay-line count, total
    parsed delay, and — when frames exist and the mouth images differ — the
    final asset line being the closed mouth. -/
theorem alternate_frames_spec (g : ATLImageGenerator) (d start ts : ℚ) (vb : Bool) (idx : ℕ)
    (hts : ts ≠ 0) (hts0 : 0 ≤ ts) :
    ∃ lines image idx',
      alternate_frames_for_duration g d start ts true vb idx = some (lines, image, idx')
      ∧ (lines.filter isDelayLine).length = (⌈d / ts⌉).toNat
      ∧ atlDuration lines
          = ((⌈d / ts⌉).toNat : ℚ) * (((pyRound (ts * 10 ^ 3)).toNat : ℚ) / 10 ^ 3)
      ∧ ((⌈d / ts⌉).toNat ≠ 0 → g.open_mouth ≠ g.closed_mouth →
          lastAssetLine lines = some (assetLine g.closed_mouth)
            ∧ lines.filter isAssetLine ≠ []) := by
  rw [alternate_frames_eq g d start ts vb idx hts]
  set times := afdTimes d start ts with htimes
  have hlen : times.length = (⌈d / ts⌉).toNat := afdTimes_length d start ts
  have hdelayAsset : ∀ j : ℕ, isDelayLine (assetLine (g.nextImage j)) = false := by
    intro j
    rw [isDelayLine, readLeadingFloat_assetLine]
    rfl
  by_cases hc : (if times.length = 0 then (none : Option PyStr)
      else some (g.nextImage (idx + times.length - 1))) ≠ some g.closed_mouth
  · rw [if_pos hc]
    refine ⟨_, _, _, rfl, ?_, ?_, ?_⟩
    · rw [List.filter_append, List.length_append, frameLines_delay_filter g ts vb hts0, hlen]
      simp [hdelayAsset]
    · rw [atlDuration_append, atlDuration_frameLines g ts vb hts0, hlen, atlDuration_cons,
        readLeadingFloat_assetLine, atlDuration_nil]
      simp
    · intro hn hoc
      constructor
      · rw [lastAssetLine, List.filter_append]
        simp only [List.filter_cons, isAssetLine_assetLine, if_true, List.filter_nil]
        rw [List.getLast?_concat]
        have hn1 : times.length ≠ 0 := hlen ▸ hn
        have hlast : g.nextImage (idx + times.length - 1) ≠ g.closed_mouth := by
          intro heq
          rw [if_neg hn1, heq] at hc
          exact hc rfl
        have hpar : (idx + times.length - 1) % 2 = 0 := by
          by_contra hpar
          exact hlast (by rw [ATLImageGenerator.nextImage, if_neg hpar])
        rw [ATLImageGenerator.nextImage, if_neg (by omega)]
      · rw [List.filter_append]
        simp [isAssetLine_assetLine]
  · rw [if_neg hc]
    refine ⟨_, _, _, rfl, ?_, ?_, ?_⟩
    · rw [frameLines_delay_filter g ts vb hts0, hlen]
    · rw [atlDuration_frameLines g ts vb hts0, hlen]
    · intro hn hoc
      have hn1 : times.length ≠ 0 := hlen ▸ hn
      have himg : (if times.length = 0 then (none : Option PyStr)
          else some (g.nextImage (idx + times.length - 1))) = some g.closed_mouth := by
        by_contra hne
        exact hc hne
      rw [if_neg hn1] at himg
      have hclosed : g.nextImage (idx + times.length - 1) = g.closed_mouth := by
        simpa using himg
      have htne : times ≠ [] := by
        intro hnil
        rw [hnil] at hn1
        simp at hn1
      constructor
      · rw [frameLines_lastAsset g ts vb times idx htne, hclosed]
      · rw [frameLines_filter_asset]
        match hx : times.length, hn1 with
        | n + 1, _ => simp [List.range_succ]

theorem reannotateLoop_cons_none (t : Transcription) (vb : Bool) (line : PyStr)
    (rest : List PyStr) (τ : ℚ) (h : readLeadingFloat line = none) :
    reannotateLoop t vb (line :: rest) τ
      = (line :: (reannotateLoop t vb rest τ).1, (reannotateLoop t vb rest τ).2) := by
  rw [reannotateLoop, h]

theorem reannotateLoop_cons_break (t : Transcription) (vb : Bool) (line : PyStr)
    (rest : List PyStr) (τ q : ℚ) (h : readLeadingFloat line = some q)
    (hbr : τ + q ≥ t.duration) :
    reannotateLoop t vb (line :: rest) τ
      = ([leadingSpaces line ++ fmtRat q 2 ++ annotate t τ (τ + q) vb false], τ + q, true) := by
  rw [reannotateLoop, h]
  dsimp only
  rw [if_pos hbr]

theorem reannotateLoop_cons_cont (t : Transcription) (vb : Bool) (line : PyStr)
    (rest : List PyStr) (τ q : ℚ) (h : readLeadingFloat line = some q)
    (hbr : ¬ τ + q ≥ t.duration) :
    reannotateLoop t vb (line :: rest) τ
      = ((leadingSpaces line ++ fmtRat q 2 ++ annotate t τ (τ + q) vb false)
            :: (reannotateLoop t vb rest (τ + q)).1,
          (reannotateLoop t vb rest (τ + q)).2) := by
  rw [reannotateLoop, h]
  dsimp only
  rw [if_neg hbr]

/-- Once the accumulated delay budget of a prefix (holding at least one delay
    line) reaches the transcript duration, the loop breaks inside the prefix:
    everything after it is dropped and the outcome is identical. -/
theorem reannotateLoop_break_drop (t : Transcription) (vb : Bool) :
    ∀ (pre rest : List PyStr) (τ : ℚ),
      (∃ l ∈ pre, isDelayLine l = true) → t.duration ≤ τ + atlDuration pre →
      reannotateLoop t vb (pre ++ rest) τ = reannotateLoop t vb pre τ
        ∧ (reannotateLoop t vb pre τ).2.2 = true := by
  intro pre
  induction pre with
  | nil =>
    intro rest τ hdelay _
    obtain ⟨l, hl, -⟩ := hdelay
    simp at hl
  | cons line pre' ih =>
    intro rest τ hdelay hsum
    rw [atlDuration_cons] at hsum
    match hparse : readLeadingFloat line with
    | none =>
      have hnotdelay : isDelayLine line = false := by rw [isDelayLine, hparse]; rfl
      have hdelay' : ∃ l ∈ pre', isDelayLine l = true := by
        obtain ⟨l, hl, hld⟩ := hdelay
        rcases List.mem_cons.mp hl with rfl | hmem
        · rw [hnotdelay] at hld
          exact absurd hld (by simp)
        · exact ⟨l, hmem, hld⟩
      rw [hparse] at hsum
      simp only [Option.getD_none, zero_add] at hsum
      obtain ⟨heq, hbr⟩ := ih rest τ hdelay' hsum
      rw [List.cons_append, reannotateLoop_cons_none t vb line _ τ hparse,
        reannotateLoop_cons_none t vb line _ τ hparse, heq]
      exact ⟨rfl, hbr⟩
    | some q =>
      rw [hparse] at hsum
      simp only [Option.getD_some] at hsum
      by_cases hbr : τ + q ≥ t.duration
      · rw [List.cons_append, reannotateLoop_cons_break t vb line _ τ q hparse hbr,
          reannotateLoop_cons_break t vb line _ τ q hparse hbr]
        exact ⟨rfl, rfl⟩
      · by_cases hd2 : ∃ l ∈ pre', isDelayLine l = true
        · obtain ⟨heq, hbk⟩ := ih rest (τ + q) hd2 (by linarith)
          rw [List.cons_append, reannotateLoop_cons_cont t vb line _ τ q hparse hbr,
            reannotateLoop_cons_cont t vb line _ τ q hparse hbr, heq]
          exact ⟨rfl, hbk⟩
        · exfalso
          have hnone : ∀ l ∈ pre', readLeadingFloat l = none := by
            intro l hl
            by_contra hcon
            refine hd2 ⟨l, hl, ?_⟩
            rw [isDelayLine]
            match hx : readLeadingFloat l with
            | none => exact absurd hx hcon
            | some _ => rfl
          rw [atlDuration_of_no_delay pre' hnone] at hsum
          apply hbr
          linarith

/-- While the accumulated delays stay short of the transcript duration the
    loop never breaks, and its final time is the start time plus the total
    parsed delay. -/
theorem reannotateLoop_no_break (t : Transcription) (vb : Bool) :
    ∀ (lines : List PyStr) (τ : ℚ),
      τ + atlDuration lines < t.duration →
      (reannotateLoop t vb lines τ).2.1 = τ + atlDuration lines
        ∧ (reannotateLoop t vb lines τ).2.2 = false := by
  intro lines
  induction lines with
  | nil =>
    intro τ _
    rw [atlDuration_nil]
    exact ⟨by simp [reannotateLoop], by simp [reannotateLoop]⟩
  | cons line rest ih =>
    intro τ hlt
    rw [atlDuration_cons] at hlt
    match hparse : readLeadingFloat line with
    | none =>
      rw [hparse] at hlt
      simp only [Option.getD_none, zero_add] at hlt
      obtain ⟨h1, h2⟩ := ih τ hlt
      rw [reannotateLoop_cons_none t vb line rest τ hparse, atlDuration_cons, hparse]
      simp only [Option.getD_none, zero_add]
      exact ⟨h1, h2⟩
    | some q =>
      rw [hparse] at hlt
      simp only [Option.getD_some] at hlt
      have hrest0 : 0 ≤ atlDuration rest := atlDuration_nonneg rest
      have hbr : ¬ τ + q ≥ t.duration := by
        intro hge
        linarith
      obtain ⟨h1, h2⟩ := ih (τ + q) (by linarith)
      rw [reannotateLoop_cons_cont t vb line rest τ q hparse hbr, atlDuration_cons, hparse]
      simp only [Option.getD_some]
      constructor
      · rw [h1]
        ring
      · exact h2

/-- Claim C4 (amended): re-annotation stops at the first delay line at which
    the accumulated delay reaches or exceeds the transcript duration, dropping
    all remaining original lines without error; and if the script is exhausted
    while the accumulated delay is still short, fixed 0.2-second frames are
    appended whose total delay is the least whole number of 0.2s steps of at
    least the remaining duration (so at least — not exactly — the remainder),
    and the result ends on the State-Closed asset line. -/
theorem stlr_c4_reannotate_length_policy :
    (∀ (g : ATLImageGenerator) (vb : Bool) (idx : ℕ) (pre rest : List PyStr),
        (∃ l ∈ pre, isDelayLine l = true) → g.transcription.duration ≤ atlDuration pre →
        reannotate_lines g vb (pre ++ rest) idx = reannotate_lines g vb pre idx)
    ∧ (∀ (g : ATLImageGenerator) (vb : Bool) (idx : ℕ) (lines : List PyStr),
        g.open_mouth ≠ g.closed_mouth →
        atlDuration lines < g.transcription.duration →
        ∃ added,
          reannotate_lines g vb lines idx
              = some ((reannotateLoop g.transcription vb lines 0).1 ++ added)
            ∧ atlDuration added
                = ((⌈(g.transcription.duration - atlDuration lines) / (1/5)⌉).toNat : ℚ) * (1/5)
            ∧ g.transcription.duration - atlDuration lines ≤ atlDuration added
            ∧ lastAssetLine added = some (assetLine g.closed_mouth)) := by
  constructor
  · intro g vb idx pre rest hdelay hsum
    obtain ⟨heq, hbr⟩ := reannotateLoop_break_drop g.transcription vb pre rest 0 hdelay
      (by rw [zero_add]; exact hsum)
    rw [reannotate_lines, reannotate_lines, heq, hbr]
  · intro g vb idx lines hoc hlt
    obtain ⟨h1, h2⟩ := reannotateLoop_no_break g.transcription vb lines 0
      (by rw [zero_add]; exact hlt)
    set d : ℚ := g.transcription.duration - atlDuration lines with hd
    have hdpos : 0 < d := by rw [hd]; linarith
    have hnpos : 0 < ⌈d / (1/5)⌉ := by
      apply Int.ceil_pos.mpr
      positivity
    have hn0 : (⌈d / (1/5)⌉).toNat ≠ 0 := by omega
    obtain ⟨added, image, idx', halt, hcount, hdur, hclose⟩ :=
      alternate_frames_spec g d (atlDuration lines) (1/5) vb idx (by norm_num) (by norm_num)
    obtain ⟨hlast, -⟩ := hclose hn0 hoc
    refine ⟨added, ?_, ?_, ?_, hlast⟩
    · rw [reannotate_lines, h2]
      simp only [Bool.false_eq_true, if_false]
      rw [if_pos (by rw [h1, zero_add]; exact hlt), h1]
      simp only [zero_add, ← hd, halt]
      rfl
    · rw [hdur, parsed_fifth, hd]
    · rw [hdur, parsed_fifth]
      have hceil : d / (1/5) ≤ (⌈d / (1/5)⌉ : ℚ) := Int.le_ceil _
      have hcast : ((⌈d / (1/5)⌉).toNat : ℚ) = (⌈d / (1/5)⌉ : ℚ) := by
        have := Int.toNat_of_nonneg (le_of_lt hnpos)
        exact_mod_cast congrArg (fun z : ℤ => (z : ℚ)) this
      rw [hcast]
      have h5 : (0 : ℚ) < 1/5 := by norm_num
      calc d = d / (1/5) * (1/5) := by field_simp
        _ ≤ (⌈d / (1/5)⌉ : ℚ) * (1/5) := by
            apply mul_le_mul_of_nonneg_right hceil (le_of_lt h5)

/-- Witness for C4 at concrete inputs: a one-line script whose delay covers the
    whole duration makes any appended junk irrelevant, and a short script gets
    closing frames appended. -/
theorem stlr_c4_reannotate_length_policy_witness :
    ((∃ l ∈ [("0.50").data], isDelayLine l = true)
      ∧ Transcription.duration [⟨"w".data, 0, 1/2, 0⟩] ≤ atlDuration [("0.50").data]
      ∧ reannotate_lines ⟨"g".data, [⟨"w".data, 0, 1/2, 0⟩], "o.png".data, "c.png".data⟩ false
            ([("0.50").data] ++ [("junk").data]) 0
          = reannotate_lines ⟨"g".data, [⟨"w".data, 0, 1/2, 0⟩], "o.png".data, "c.png".data⟩
            false [("0.50").data] 0)
    ∧ (("o.png".data : PyStr) ≠ "c.png".data
      ∧ atlDuration [("0.2").data]
          < Transcription.duration [⟨"w".data, 0, 3/10, 0⟩]
      ∧ ∃ added,
          reannotate_lines ⟨"g".data, [⟨"w".data, 0, 3/10, 0⟩], "o.png".data, "c.png".data⟩
              false [("0.2").data] 0
            = some ((reannotateLoop [⟨"w".data, 0, 3/10, 0⟩] false [("0.2").data] 0).1 ++ added)
          ∧ atlDuration added
              = ((⌈(Transcription.duration [⟨"w".data, 0, 3/10, 0⟩]
                  - atlDuration [("0.2").data]) / (1/5)⌉).toNat : ℚ) * (1/5)
          ∧ Transcription.duration [⟨"w".data, 0, 3/10, 0⟩] - atlDuration [("0.2").data]
              ≤ atlDuration added
          ∧ lastAssetLine added = some (assetLine ("c.png".data))) :=
  ⟨⟨⟨("0.50").data, by decide, by decide⟩, by decide,
    stlr_c4_reannotate_length_policy.1
      ⟨"g".data, [⟨"w".data, 0, 1/2, 0⟩], "o.png".data, "c.png".data⟩ false 0
      [("0.50").data] [("junk").data] ⟨("0.50").data, by decide, by decide⟩ (by decide)⟩,
    by decide, by decide,
    stlr_c4_reannotate_length_policy.2
      ⟨"g".data, [⟨"w".data, 0, 3/10, 0⟩], "o.png".data, "c.png".data⟩ false 0
      [("0.2").data] (by decide) (by decide)⟩

/-- Counterexample to C4 as stated: with a 0.3-second transcript and a script
    covering 0.2 seconds, the appended fixed-step frames cover a whole
    0.2-second step, so the re-annotated script's total delay is 0.4, not the
    transcript duration 0.3 — the remaining duration is covered at least, not
    exactly. -/
theorem stlr_c4_reannotate_length_policy_counterexample :
    ((reannotate_lines ⟨"g".data, [⟨"w".data, 0, 3/10, 0⟩], "o.png".data, "c.png".data⟩ false
        [("0.2").data] 0).map atlDuration) = some (2/5)
      ∧ (2/5 : ℚ) ≠ Transcription.duration [⟨"w".data, 0, 3/10, 0⟩] := by
  constructor
  · decide
  · decide

theorem getLast?_filter_append_right (p : PyStr → Bool) (l₁ l₂ : List PyStr)
    (h : l₂.filter p ≠ []) :
    ((l₁ ++ l₂).filter p).getLast? = (l₂.filter p).getLast?
      ∧ (l₁ ++ l₂).filter p ≠ [] := by
  rw [List.filter_append]
  exact ⟨List.getLast?_append_of_ne_nil _ h, by simp [h]⟩

/-- The delineating pre-comment of a smart block carries no leading float and
    no leading quote. -/
theorem smart_pre_comment_inert (w : WordTiming) :
    isDelayLine (("    # ↓ --- ".data) ++ w.word ++ (" (duration: ".data)
        ++ fmtRat w.duration 2 ++ ("s) --- ↓".data)) = false
      ∧ isAssetLine (("    # ↓ --- ".data) ++ w.word ++ (" (duration: ".data)
        ++ fmtRat w.duration 2 ++ ("s) --- ↓".data)) = false :=
  ⟨rfl, rfl⟩

/-- The delineating post-comment of a smart block carries no leading float and
    no leading quote. -/
theorem smart_post_comment_inert (w : WordTiming) :
    isDelayLine (("    # ↑ --- ".data) ++ w.word ++ (" --- ↑".data)) = false
      ∧ isAssetLine (("    # ↑ --- ".data) ++ w.word ++ (" --- ↑".data)) = false :=
  ⟨rfl, rfl⟩

/-- `_generate_smart_block` on a positive-duration word: it terminates, emits
    exactly `max(round(duration / 0.2), 1)` delay lines, and (when the two
    mouth images differ) its last asset line is the closed mouth. -/
theorem generate_smart_block_spec (g : ATLImageGenerator) (w : WordTiming) (vb : Bool)
    (idx : ℕ) (hd : 0 < w.duration) :
    ∃ block idx',
      generate_smart_block g w vb idx = some (block, idx')
      ∧ (block.filter isDelayLine).length = (max (pyRound (w.duration / (1/5))) 1).toNat
      ∧ (g.open_mouth ≠ g.closed_mouth →
          lastAssetLine block = some (assetLine g.closed_mouth)
            ∧ block.filter isAssetLine ≠ []) := by
  have hk1 : (1:ℤ) ≤ max (pyRound (w.duration / (1/5))) 1 := le_max_right _ _
  have hkpos : (0:ℚ) < ((max (pyRound (w.duration / (1/5))) 1 : ℤ) : ℚ) := by
    exact_mod_cast (by omega : (0:ℤ) < max (pyRound (w.duration / (1/5))) 1)
  have hfl0 : 0 < w.duration / ((max (pyRound (w.duration / (1/5))) 1 : ℤ) : ℚ) :=
    div_pos hd hkpos
  have hquot : w.duration / (w.duration / ((max (pyRound (w.duration / (1/5))) 1 : ℤ) : ℚ))
      = ((max (pyRound (w.duration / (1/5))) 1 : ℤ) : ℚ) := by
    rw [div_div_eq_mul_div, mul_comm, mul_div_assoc, div_self (ne_of_gt hd), mul_one]
  have hceil : (⌈w.duration
        / (w.duration / ((max (pyRound (w.duration / (1/5))) 1 : ℤ) : ℚ))⌉).toNat
      = (max (pyRound (w.duration / (1/5))) 1).toNat := by
    rw [hquot, Int.ceil_intCast]
  have hn0 : (⌈w.duration
        / (w.duration / ((max (pyRound (w.duration / (1/5))) 1 : ℤ) : ℚ))⌉).toNat ≠ 0 := by
    rw [hceil]; omega
  obtain ⟨lines, image, idx', halt, hcnt, hdur, hclose⟩ :=
    alternate_frames_spec g w.duration w.start
      (w.duration / ((max (pyRound (w.duration / (1/5))) 1 : ℤ) : ℚ)) vb idx
      (ne_of_gt hfl0) (le_of_lt hfl0)
  refine ⟨(("    # ↓ --- ".data) ++ w.word ++ (" (duration: ".data)
      ++ fmtRat w.duration 2 ++ ("s) --- ↓".data))
    :: lines ++ [("    # ↑ --- ".data) ++ w.word ++ (" --- ↑".data)], idx', ?_, ?_, ?_⟩
  · rw [generate_smart_block]
    dsimp only
    rw [halt]
    rfl
  · rw [List.filter_append, List.filter_cons, (smart_pre_comment_inert w).1,
      List.filter_cons, (smart_post_comment_inert w).1]
    simp only [Bool.false_eq_true, if_false, List.filter_nil, List.append_nil]
    rw [hcnt, hceil]
  · intro hoc
    obtain ⟨hlast, hfil⟩ := hclose hn0 hoc
    rw [lastAssetLine] at hlast
    constructor
    · rw [lastAssetLine, List.filter_append, List.filter_cons, (smart_pre_comment_inert w).2,
        List.filter_cons, (smart_post_comment_inert w).2]
      simp only [Bool.false_eq_true, if_false, List.filter_nil, List.append_nil]
      exact hlast
    · rw [List.filter_append, List.filter_cons, (smart_pre_comment_inert w).2,
        List.filter_cons, (smart_post_comment_inert w).2]
      simp only [Bool.false_eq_true, if_false, List.filter_nil, List.append_nil]
      exact hfil

/-- The optional pause lines emitted after a smart block contain no asset line. -/
theorem pause_lines_no_asset (wait : ℚ) :
    (if wait ≠ 0 then [([] : PyStr), ("    ".data) ++ fmtRat wait 3 ++ ("  # (pause)".data),
        ([] : PyStr)] else []).filter isAssetLine = [] := by
  by_cases hw : wait ≠ 0
  · rw [if_pos hw]
    rw [List.filter_cons, List.filter_cons, List.filter_cons,
      (by rfl : isAssetLine ([] : PyStr) = false),
      isAssetLine_ws_fmt (("    ").data) wait 3 (("  # (pause)").data) (by decide)]
    rfl
  · rw [if_neg hw]
    rfl

/-- The word loop of `generate_smart_atl` on a non-empty pair list of
    positive-duration words terminates and (when the mouth images differ) its
    last asset line is the closed mouth. -/
theorem smartBlocksLoop_spec (g : ATLImageGenerator) (vb : Bool)
    (hoc : g.open_mouth ≠ g.closed_mouth) :
    ∀ (pairs : List (WordTiming × ℚ)) (idx : ℕ), pairs ≠ [] →
      (∀ p ∈ pairs, 0 < p.1.duration) →
      ∃ lines, smartBlocksLoop g vb pairs idx = some lines
        ∧ lastAssetLine lines = some (assetLine g.closed_mouth)
        ∧ lines.filter isAssetLine ≠ [] := by
  intro pairs
  induction pairs with
  | nil => intro idx h _; exact absurd rfl h
  | cons p rest ih =>
    intro idx _ hpos
    obtain ⟨w, wait⟩ := p
    obtain ⟨block, idx', hblk, -, hcl⟩ :=
      generate_smart_block_spec g w vb idx (hpos (w, wait) (by simp))
    obtain ⟨hlastb, hfilb⟩ := hcl hoc
    rcases rest with - | ⟨r, rs⟩
    · refine ⟨block ++ (if wait ≠ 0 then [([] : PyStr),
          ("    ".data) ++ fmtRat wait 3 ++ ("  # (pause)".data), ([] : PyStr)] else []) ++ [],
        ?_, ?_, ?_⟩
      · rw [smartBlocksLoop]
        dsimp only
        rw [hblk]
        rfl
      · rw [lastAssetLine, List.append_nil, List.filter_append, pause_lines_no_asset,
          List.append_nil]
        rw [lastAssetLine] at hlastb
        exact hlastb
      · rw [List.append_nil, List.filter_append, pause_lines_no_asset, List.append_nil]
        exact hfilb
    · obtain ⟨restLines, hrest, hlastr, hfilr⟩ := ih idx' (by simp)
        (fun q hq => hpos q (by simp [hq]))
      refine ⟨block ++ (if wait ≠ 0 then [([] : PyStr),
          ("    ".data) ++ fmtRat wait 3 ++ ("  # (pause)".data), ([] : PyStr)] else [])
          ++ restLines, ?_, ?_, ?_⟩
      · rw [smartBlocksLoop]
        dsimp only
        rw [hblk]
        simp only [Option.bind_eq_bind, Option.some_bind]
        rw [hrest]
        simp only [Option.some_bind]
        rfl
      · obtain ⟨heq, -⟩ := getLast?_filter_append_right isAssetLine _ restLines hfilr
        rw [lastAssetLine, heq]
        rw [lastAssetLine] at hlastr
        exact hlastr
      · obtain ⟨-, hne⟩ := getLast?_filter_append_right isAssetLine _ restLines hfilr
        exact hne

/-- Claim C5 (amended): when the two mouth images differ, the fixed-step
    generator's script ends on the closed-mouth (State-Closed) asset line for
    every transcript of positive duration, and the word-aligned generator's
    script does so for every transcript of at least two words all of positive
    duration.  The claim's "including empty transcripts" is false: there the
    fixed-step generator ends on the open mouth (see the counterexample). -/
theorem stlr_c5_generators_end_closed (g : ATLImageGenerator) (vb : Bool) (idx : ℕ)
    (hoc : g.open_mouth ≠ g.closed_mouth) :
    (0 < g.transcription.duration →
      ∃ lines, generate_atl_lines g vb idx = some lines
        ∧ lastAssetLine lines = some (assetLine g.closed_mouth))
    ∧ (2 ≤ g.transcription.length → (∀ w ∈ g.transcription, 0 < w.duration) →
      ∃ lines, generate_smart_atl_lines g vb idx = some lines
        ∧ lastAssetLine lines = some (assetLine g.closed_mouth)) := by
  constructor
  · intro hdur
    have hn0 : (⌈g.transcription.duration / (1/5)⌉).toNat ≠ 0 := by
      have hpos : 0 < ⌈g.transcription.duration / (1/5)⌉ := Int.ceil_pos.mpr (by positivity)
      omega
    obtain ⟨lines, image, idx', halt, -, -, hclose⟩ :=
      alternate_frames_spec g g.transcription.duration 0 (1/5) vb idx (by norm_num) (by norm_num)
    obtain ⟨hlast, hfil⟩ := hclose hn0 hoc
    refine ⟨[("image ".data) ++ g.image_name ++ [':'],
        ("    # ".data) ++ (if g.transcription.confident then [] else "(!)".data)
          ++ (" Transcription: ".data) ++ g.transcription.text,
        ("    # length: ".data) ++ fmtRat g.transcription.duration 3 ++ (" seconds".data)]
        ++ lines, ?_, ?_⟩
    · rw [generate_atl_lines]
      dsimp only
      rw [halt]
      rfl
    · obtain ⟨heq, -⟩ := getLast?_filter_append_right isAssetLine _ lines hfil
      rw [lastAssetLine, heq]
      rw [lastAssetLine] at hlast
      exact hlast
  · intro hlen hwords
    have hwlen : (Transcription.waits g.transcription).length = g.transcription.length := by
      rw [Transcription.waits, if_neg (by omega)]
      rw [List.length_append, List.length_map, pairwise, List.length_zip, List.length_tail,
        List.length_singleton]
      omega
    have hzlen : (g.transcription.zip (Transcription.waits g.transcription)).length
        = g.transcription.length := by
      rw [List.length_zip, hwlen, min_self]
    have hne : g.transcription.zip (Transcription.waits g.transcription) ≠ [] := by
      intro h
      rw [h] at hzlen
      simp only [List.length_nil] at hzlen
      omega
    have hmem : ∀ p ∈ g.transcription.zip (Transcription.waits g.transcription),
        0 < p.1.duration := by
      intro p hp
      obtain ⟨a, b⟩ := p
      exact hwords a (List.of_mem_zip hp).1
    obtain ⟨body, hbody, hlastb, hfilb⟩ := smartBlocksLoop_spec g vb hoc _ idx hne hmem
    refine ⟨[("image ".data) ++ g.image_name ++ [':'],
        ("    # ".data) ++ (if g.transcription.confident then [] else "(!)".data)
          ++ (" Transcription: ".data) ++ g.transcription.text,
        ("    # length: ".data) ++ fmtRat g.transcription.duration 2 ++ (" seconds".data),
        ("    ".data) ++ g.closed_mouth,
        ("    ".data) ++ pyFloatStr g.transcription.tStart]
        ++ body, ?_, ?_⟩
    · rw [generate_smart_atl_lines]
      dsimp only
      rw [hbody]
      rfl
    · obtain ⟨heq, -⟩ := getLast?_filter_append_right isAssetLine _ body hfilb
      rw [lastAssetLine, heq]
      rw [lastAssetLine] at hlastb
      exact hlastb

/-- Witness for C5 at a concrete two-word transcript of positive duration. -/
theorem stlr_c5_generators_end_closed_witness :
    ((("o.png".data : PyStr) ≠ "c.png".data
      ∧ 0 < Transcription.duration [⟨"a".data, 0, 1/5, 0⟩, ⟨"b".data, 1/5, 2/5, 0⟩]
      ∧ 2 ≤ ([⟨"a".data, 0, 1/5, 0⟩, ⟨"b".data, 1/5, 2/5, 0⟩] : Transcription).length
      ∧ (∀ w ∈ ([⟨"a".data, 0, 1/5, 0⟩, ⟨"b".data, 1/5, 2/5, 0⟩] : Transcription),
          0 < w.duration))
    ∧ (∃ lines, generate_atl_lines ⟨"g".data, [⟨"a".data, 0, 1/5, 0⟩, ⟨"b".data, 1/5, 2/5, 0⟩],
          "o.png".data, "c.png".data⟩ false 0 = some lines
        ∧ lastAssetLine lines = some (assetLine ("c.png".data))))
    ∧ (∃ lines, generate_smart_atl_lines ⟨"g".data,
          [⟨"a".data, 0, 1/5, 0⟩, ⟨"b".data, 1/5, 2/5, 0⟩],
          "o.png".data, "c.png".data⟩ false 0 = some lines
        ∧ lastAssetLine lines = some (assetLine ("c.png".data))) :=
  ⟨⟨⟨by decide, by decide, by decide, by decide⟩,
    (stlr_c5_generators_end_closed
      ⟨"g".data, [⟨"a".data, 0, 1/5, 0⟩, ⟨"b".data, 1/5, 2/5, 0⟩],
        "o.png".data, "c.png".data⟩ false 0 (by decide)).1 (by decide)⟩,
    (stlr_c5_generators_end_closed
      ⟨"g".data, [⟨"a".data, 0, 1/5, 0⟩, ⟨"b".data, 1/5, 2/5, 0⟩],
        "o.png".data, "c.png".data⟩ false 0 (by decide)).2 (by decide) (by decide)⟩

/-- Counterexample to C5 as stated: on the EMPTY transcript the fixed-step
    generator emits no frames, so the last image is `None`; the ensure-close
    branch then draws the next cycled image — the OPEN mouth — and the script's
    only (hence last) asset line is State-Open, not State-Closed. -/
theorem stlr_c5_generators_end_closed_counterexample :
    ((generate_atl_lines ⟨"x".data, [], "o.png".data, "c.png".data⟩ false 0).map lastAssetLine)
        = some (some (assetLine ("o.png".data)))
      ∧ assetLine ("o.png".data) ≠ assetLine ("c.png".data) := by
  exact ⟨by decide, by decide⟩

/-- Claim C6 (amended): for every word of positive duration the smart block
    terminates, uses step `word.duration / max(round(word.duration / 0.2), 1)`,
    emits exactly `max(round(word.duration / 0.2), 1)` delay lines, and that
    many steps sum to the word's duration exactly — in particular within 1e-6.
    For a zero-duration word the step degenerates to 0 and `frange` yields
    `start` forever, so the generator never terminates instead of clamping to
    one frame (see the counterexample). -/
theorem stlr_c6_smart_frame_arithmetic (g : ATLImageGenerator) (w : WordTiming) (vb : Bool)
    (idx : ℕ) (hd : 0 < w.duration) :
    ∃ block idx',
      generate_smart_block g w vb idx = some (block, idx')
      ∧ (block.filter isDelayLine).length = (max (pyRound (w.duration / (1/5))) 1).toNat
      ∧ |((max (pyRound (w.duration / (1/5))) 1 : ℤ) : ℚ)
            * (w.duration / ((max (pyRound (w.duration / (1/5))) 1 : ℤ) : ℚ))
          - w.duration| ≤ 1/1000000 := by
  obtain ⟨block, idx', hblk, hcnt, -⟩ := generate_smart_block_spec g w vb idx hd
  refine ⟨block, idx', hblk, hcnt, ?_⟩
  have hk1 : (1:ℤ) ≤ max (pyRound (w.duration / (1/5))) 1 := le_max_right _ _
  have hkpos : (0:ℚ) < ((max (pyRound (w.duration / (1/5))) 1 : ℤ) : ℚ) := by
    exact_mod_cast (by omega : (0:ℤ) < max (pyRound (w.duration / (1/5))) 1)
  rw [mul_comm, div_mul_cancel₀ _ (ne_of_gt hkpos), sub_self, abs_zero]
  norm_num

/-- Witness for C6 at a concrete half-second word: three frames of a sixth of
    a second each. -/
theorem stlr_c6_smart_frame_arithmetic_witness :
    0 < WordTiming.duration ⟨"w".data, 0, 1/2, 0⟩
    ∧ ∃ block idx',
        generate_smart_block ⟨"g".data, [⟨"w".data, 0, 1/2, 0⟩], "o.png".data, "c.png".data⟩
            ⟨"w".data, 0, 1/2, 0⟩ false 0 = some (block, idx')
        ∧ (block.filter isDelayLine).length
            = (max (pyRound (WordTiming.duration ⟨"w".data, 0, 1/2, 0⟩ / (1/5))) 1).toNat
        ∧ |((max (pyRound (WordTiming.duration ⟨"w".data, 0, 1/2, 0⟩ / (1/5))) 1 : ℤ) : ℚ)
              * (WordTiming.duration ⟨"w".data, 0, 1/2, 0⟩
                / ((max (pyRound (WordTiming.duration ⟨"w".data, 0, 1/2, 0⟩ / (1/5))) 1
                  : ℤ) : ℚ))
            - WordTiming.duration ⟨"w".data, 0, 1/2, 0⟩| ≤ 1/1000000 :=
  ⟨by decide,
    stlr_c6_smart_frame_arithmetic
      ⟨"g".data, [⟨"w".data, 0, 1/2, 0⟩], "o.png".data, "c.png".data⟩
      ⟨"w".data, 0, 1/2, 0⟩ false 0 (by decide)⟩

theorem fmtRat_no_lb (q : ℚ) (prec : ℕ) : ∀ c ∈ fmtRat q prec, isLineBoundary c = false := by
  rw [fmtRat]
  intro c hmem
  rcases List.mem_append.mp hmem with h12 | h3
  · rcases List.mem_append.mp h12 with h1 | h2
    · split at h1
      · simp only [List.mem_singleton] at h1
        subst h1
        decide
      · simp at h1
    · exact not_lineBoundary_of_isDigit ((natDigits_spec _).2.2 _ h2)
  · rcases List.mem_cons.mp h3 with hdot | hpad
    · subst hdot
      decide
    · exact not_lineBoundary_of_isDigit ((padDigits_spec prec _).2.2 _ hpad)

theorem fmtRat_ne_nil (q : ℚ) (prec : ℕ) : fmtRat q prec ≠ [] := by
  obtain ⟨c, rest, hfmt, -, -⟩ := fmtRat_head q prec
  rw [hfmt]
  simp

theorem intercalate_no_lb (sep : PyStr) (hs : ∀ c ∈ sep, isLineBoundary c = false) :
    ∀ ls : List PyStr, (∀ l ∈ ls, ∀ c ∈ l, isLineBoundary c = false) →
      ∀ c ∈ List.intercalate sep ls, isLineBoundary c = false := by
  intro ls
  induction ls with
  | nil =>
    intro _ c hc
    rw [show List.intercalate sep [] = [] by simp [List.intercalate]] at hc
    simp at hc
  | cons a rest ih =>
    intro h c hc
    rcases rest with - | ⟨b, brest⟩
    · rw [show List.intercalate sep [a] = a by
        simp [List.intercalate, List.intersperse]] at hc
      exact h a (by simp) c hc
    · rw [show List.intercalate sep (a :: b :: brest)
          = a ++ sep ++ List.intercalate sep (b :: brest) by
        simp [List.intercalate, List.intersperse]] at hc
      rcases List.mem_append.mp hc with h12 | h3
      · rcases List.mem_append.mp h12 with h1 | h2
        · exact h a (by simp) c h1
        · exact hs c h2
      · exact ih (fun l hl => h l (by simp [hl])) c h3

theorem reprStr_no_lb (s : PyStr) (h : ∀ c ∈ s, isLineBoundary c = false) :
    ∀ c ∈ reprStr s, isLineBoundary c = false := by
  rw [reprStr]
  intro c hmem
  rcases List.mem_append.mp hmem with h1 | h2
  · rcases List.mem_cons.mp h1 with hq | hmem2
    · subst hq
      decide
    · exact h c hmem2
  · simp only [List.mem_singleton] at h2
    subst h2
    decide

theorem mem_terseBoundaries_word (t : Transcription) (s e : ℚ) (b : BoundEvent)
    (hb : b ∈ terseBoundaries t s e) : ∃ w ∈ t, b.1 = w.word := by
  rw [terseBoundaries, mem_sortByTime, startEvents] at hb
  obtain ⟨w, hwmem, rfl⟩ := List.mem_map.mp hb
  exact ⟨w, (List.mem_filter.mp hwmem).1, rfl⟩

theorem mem_verboseBoundaries_word (t : Transcription) (s e : ℚ) (b : BoundEvent)
    (hb : b ∈ verboseBoundaries t s e) :
    (∃ w ∈ t, b.1 = w.word)
      ∧ (b.2.2 = ("start".data : PyStr) ∨ b.2.2 = ("end".data : PyStr)) := by
  rw [verboseBoundaries, mem_sortByTime] at hb
  rcases List.mem_append.mp hb with h1 | h2
  · rw [terseBoundaries, mem_sortByTime, startEvents] at h1
    obtain ⟨w, hwmem, rfl⟩ := List.mem_map.mp h1
    exact ⟨⟨w, (List.mem_filter.mp hwmem).1, rfl⟩, Or.inl rfl⟩
  · rw [endEvents] at h2
    obtain ⟨w, hwmem, rfl⟩ := List.mem_map.mp h2
    exact ⟨⟨w, (List.mem_filter.mp hwmem).1, rfl⟩, Or.inr rfl⟩

/-- When no transcript word contains a line-boundary character, no annotation
    does either (word texts are the only non-literal content of an
    annotation). -/
theorem annotate_no_lb (t : Transcription) (s e : ℚ) (vb asst : Bool)
    (hw : ∀ w ∈ t, ∀ c ∈ w.word, isLineBoundary c = false) :
    ∀ c ∈ annotate t s e vb asst, isLineBoundary c = false := by
  intro c hc
  rw [annotate] at hc
  split at hc
  · simp at hc
  · split at hc
    · dsimp only at hc
      split at hc
      · rcases List.mem_append.mp hc with h1 | h2
        · exact (by decide : ∀ d ∈ (("  # ").data : PyStr), isLineBoundary d = false) c h1
        · refine intercalate_no_lb ((" |").data) (by decide) _ ?_ c h2
          intro x hx
          obtain ⟨b, hb, rfl⟩ := List.mem_map.mp hx
          obtain ⟨w, hwt, hbw⟩ := mem_terseBoundaries_word t s e b hb
          rw [hbw]
          exact hw w hwt
      · simp at hc
    · have hmem' := (stripRight_isPrefix _).subset hc
      simp only [List.mem_append] at hmem'
      rcases hmem' with ((((hA | hB) | hC) | hD) | hE) | hF
      · exact (by decide : ∀ d ∈ (("  # animation time: ").data : PyStr),
          isLineBoundary d = false) c hA
      · exact fmtRat_no_lb s 3 c hB
      · exact (by decide : ∀ d ∈ ((" → ").data : PyStr), isLineBoundary d = false) c hC
      · exact fmtRat_no_lb e 3 c hD
      · exact (by decide : ∀ d ∈ ([' '] : PyStr), isLineBoundary d = false) c hE
      · refine intercalate_no_lb [' '] (by decide) _ ?_ c hF
        intro x hx
        obtain ⟨b, hb, rfl⟩ := List.mem_map.mp hx
        obtain ⟨⟨w, hwt, hbw⟩, htag⟩ := mem_verboseBoundaries_word t s e b hb
        intro d hd
        simp only [List.mem_append] at hd
        rcases hd with (((((h1 | h2) | h3) | h4) | h5) | h6) | h7
        · exact (by decide : ∀ x ∈ (("| ").data : PyStr), isLineBoundary x = false) d h1
        · exact reprStr_no_lb b.1 (by rw [hbw]; exact hw w hwt) d h2
        · exact (by decide : ∀ x ∈ ((" [").data : PyStr), isLineBoundary x = false) d h3
        · rcases htag with ht | ht
          · rw [ht] at h4
            exact (by decide : ∀ x ∈ (("start").data : PyStr), isLineBoundary x = false) d h4
          · rw [ht] at h4
            exact (by decide : ∀ x ∈ (("end").data : PyStr), isLineBoundary x = false) d h4
        · exact (by decide : ∀ x ∈ ((" @ ").data : PyStr), isLineBoundary x = false) d h5
        · exact fmtRat_no_lb _ 2 d h6
        · exact (by decide : ∀ x ∈ ([']'] : PyStr), isLineBoundary x = false) d h7

theorem splitlinesGo_no_lb : ∀ (n : ℕ) (s acc : PyStr), s.length ≤ n →
    (∀ c ∈ acc, isLineBoundary c = false) →
    ∀ l ∈ splitlinesGo s acc, ∀ c ∈ l, isLineBoundary c = false := by
  intro n
  induction n with
  | zero =>
    intro s acc hlen hacc l hl
    have hs : s = [] := List.length_eq_zero.mp (by omega)
    subst hs
    rw [splitlinesGo] at hl
    split at hl
    · simp at hl
    · simp only [List.mem_singleton] at hl
      subst hl
      intro d hd
      exact hacc d (List.mem_reverse.mp hd)
  | succ n ih =>
    intro s acc hlen hacc l hl
    rcases s with - | ⟨c, s'⟩
    · rw [splitlinesGo] at hl
      split at hl
      · simp at hl
      · simp only [List.mem_singleton] at hl
        subst hl
        intro d hd
        exact hacc d (List.mem_reverse.mp hd)
    · rcases s' with - | ⟨c2, cs⟩
      · rw [splitlinesGo] at hl
        split at hl
        · simp only [List.mem_singleton] at hl
          subst hl
          intro d hd
          exact hacc d (List.mem_reverse.mp hd)
        · rename_i hb
          simp only [List.mem_singleton] at hl
          subst hl
          intro d hd
          rcases List.mem_cons.mp (List.mem_reverse.mp hd) with rfl | hmem
          · exact Bool.eq_false_iff.mpr hb
          · exact hacc d hmem
      · rw [splitlinesGo] at hl
        by_cases hcr : c = '\r'
        · rw [if_pos hcr] at hl
          by_cases hc2 : c2 = '\n'
          · rw [if_pos hc2] at hl
            rcases List.mem_cons.mp hl with rfl | hmem
            · intro d hd
              exact hacc d (List.mem_reverse.mp hd)
            · refine ih cs [] ?_ (by simp) l hmem
              simp only [List.length_cons] at hlen
              omega
          · rw [if_neg hc2] at hl
            rcases List.mem_cons.mp hl with rfl | hmem
            · intro d hd
              exact hacc d (List.mem_reverse.mp hd)
            · refine ih (c2 :: cs) [] ?_ (by simp) l hmem
              simp only [List.length_cons] at hlen ⊢
              omega
        · rw [if_neg hcr] at hl
          cases hb : isLineBoundary c with
          | true =>
            rw [if_pos hb] at hl
            rcases List.mem_cons.mp hl with rfl | hmem
            · intro d hd
              exact hacc d (List.mem_reverse.mp hd)
            · refine ih (c2 :: cs) [] ?_ (by simp) l hmem
              simp only [List.length_cons] at hlen ⊢
              omega
          | false =>
            rw [if_neg (by simp [hb])] at hl
            refine ih (c2 :: cs) (c :: acc) ?_ ?_ l hl
            · simp only [List.length_cons] at hlen ⊢
              omega
            · intro d hd
              rcases List.mem_cons.mp hd with rfl | hmem
              · exact hb
              · exact hacc d hmem

/-- Each piece produced by `splitlines` is free of line-boundary characters. -/
theorem splitlines_no_lb (s : PyStr) :
    ∀ l ∈ splitlines s, ∀ c ∈ l, isLineBoundary c = false :=
  fun l hl => splitlinesGo_no_lb s.length s [] le_rfl (by simp) l hl

theorem splitlinesGo_lbFree : ∀ (a acc : PyStr), (∀ c ∈ a, isLineBoundary c = false) →
    splitlinesGo a acc
      = if (acc.reverse ++ a).isEmpty then [] else [acc.reverse ++ a] := by
  intro a
  induction a with
  | nil =>
    intro acc _
    rw [splitlinesGo, List.append_nil]
    cases acc <;> simp [List.isEmpty_iff]
  | cons c cs ih =>
    intro acc hnb
    have hcb : isLineBoundary c = false := hnb c (by simp)
    have hcr : ¬ (c = '\r') := by
      intro h
      subst h
      exact absurd hcb (by decide)
    rcases cs with - | ⟨c2, cs'⟩
    · rw [splitlinesGo, if_neg (by simp [hcb]), List.reverse_cons]
      have hne : (acc.reverse ++ [c]).isEmpty = false := by
        cases h : acc.reverse ++ [c] with
        | nil => exact absurd h (by simp)
        | cons x xs => rfl
      rw [hne]
      simp
    · rw [splitlinesGo, if_neg hcr, if_neg (by simp [hcb]),
        ih (c :: acc) (fun d hd => hnb d (List.mem_cons_of_mem _ hd)),
        List.reverse_cons, List.append_assoc, List.singleton_append]

theorem splitlinesGo_nl_split : ∀ (a : PyStr) (s acc : PyStr),
    (∀ c ∈ a, isLineBoundary c = false) →
    splitlinesGo (a ++ '\n' :: s) acc = (acc.reverse ++ a) :: splitlinesGo s [] := by
  intro a
  induction a with
  | nil =>
    intro s acc _
    rw [List.nil_append, List.append_nil]
    rcases s with - | ⟨c2, cs⟩
    · have h1 : splitlinesGo ['\n'] acc = [acc.reverse] := by
        rw [splitlinesGo, if_pos (by decide)]
      have h2 : splitlinesGo ([] : PyStr) [] = [] := by
        rw [splitlinesGo]
        rfl
      rw [h1, h2]
    · rw [splitlinesGo, if_neg (by decide), if_pos (by decide)]
  | cons c cs ih =>
    intro s acc hnb
    have hcb : isLineBoundary c = false := hnb c (by simp)
    have hcr : ¬ (c = '\r') := by
      intro h
      subst h
      exact absurd hcb (by decide)
    rcases cs with - | ⟨c2, cs'⟩
    · rw [List.cons_append, List.nil_append, splitlinesGo, if_neg hcr,
        if_neg (by simp [hcb]),
        show ('\n' :: s : PyStr) = [] ++ '\n' :: s from rfl,
        ih s (c :: acc) (by simp),
        List.reverse_cons, List.append_nil]
    · rw [List.cons_append, List.cons_append, splitlinesGo, if_neg hcr,
        if_neg (by simp [hcb]),
        show (c2 :: (cs' ++ '\n' :: s) : PyStr) = (c2 :: cs') ++ '\n' :: s from rfl,
        ih s (c :: acc) (fun d hd => hnb d (List.mem_cons_of_mem _ hd)),
        List.reverse_cons, List.append_assoc, List.singleton_append]

/-- `splitlines` is a left inverse of `"\n".join` on boundary-free lines whose
    last line is non-empty (a trailing empty line would be swallowed by
    Python's `splitlines`). -/
theorem splitlines_joinNl : ∀ (L : List PyStr),
    (∀ l ∈ L, ∀ c ∈ l, isLineBoundary c = false) →
    (∀ x ∈ L.getLast?, x ≠ []) → splitlines (joinNl L) = L := by
  intro L
  induction L with
  | nil => intro _ _; rfl
  | cons a rest ih =>
    intro hnl hlast
    rcases rest with - | ⟨b, brest⟩
    · rw [show joinNl [a] = a by simp [joinNl, List.intercalate, List.intersperse]]
      rw [splitlines, splitlinesGo_lbFree a [] (hnl a (by simp))]
      have ha : a ≠ [] := hlast a (by rw [Option.mem_def, List.getLast?_singleton])
      simp [List.isEmpty_iff, ha]
    · rw [show joinNl (a :: b :: brest) = a ++ '\n' :: joinNl (b :: brest) by
        simp [joinNl, List.intercalate, List.intersperse]]
      rw [splitlines, splitlinesGo_nl_split a _ [] (hnl a (by simp))]
      simp only [List.reverse_nil, List.nil_append]
      have hih := ih (fun l hl => hnl l (List.mem_cons_of_mem _ hl))
        (fun x hx => hlast x (by
          rw [Option.mem_def, List.getLast?_cons_cons]
          exact Option.mem_def.mp hx))
      rw [splitlines] at hih
      rw [hih]

/-- Counterexample to C6 as stated: a zero-duration word gives frame step
    `0 / max(round(0), 1) = 0`, for which `frange` yields its start value
    forever — the smart block diverges (modelled `none`) although the claim
    demands a frame count clamped to at least one. -/
theorem stlr_c6_smart_frame_arithmetic_counterexample :
    generate_smart_block ⟨"g".data, [⟨"w".data, 0, 0, 0⟩], "o.png".data, "c.png".data⟩
        ⟨"w".data, 0, 0, 0⟩ false 0 = none
      ∧ (max (pyRound (WordTiming.duration ⟨"w".data, 0, 0, 0⟩ / (1/5))) 1).toNat = 1 := by
  exact ⟨by decide, by decide⟩

/-- Lines emitted by the re-annotation loop are free of line-boundary
    characters when both the input lines and all transcript words are. -/
theorem reannotateLoop_no_lb (t : Transcription) (vb : Bool)
    (hw : ∀ w ∈ t, ∀ c ∈ w.word, isLineBoundary c = false) :
    ∀ (lines : List PyStr) (τ : ℚ), (∀ l ∈ lines, ∀ c ∈ l, isLineBoundary c = false) →
      ∀ l ∈ (reannotateLoop t vb lines τ).1, ∀ c ∈ l, isLineBoundary c = false := by
  intro lines
  induction lines with
  | nil =>
    intro τ _ l hl
    simp [reannotateLoop] at hl
  | cons line rest ih =>
    intro τ hnl l hl
    have hline : ∀ c ∈ line, isLineBoundary c = false := hnl line (by simp)
    have hrest : ∀ x ∈ rest, ∀ c ∈ x, isLineBoundary c = false :=
      fun x hx => hnl x (by simp [hx])
    have hnewline : ∀ q : ℚ, ∀ c ∈ leadingSpaces line ++ fmtRat q 2
        ++ annotate t τ (τ + q) vb false, isLineBoundary c = false := by
      intro q c hmem
      rcases List.mem_append.mp hmem with h12 | h3
      · rcases List.mem_append.mp h12 with h1 | h2
        · exact hline c ((List.takeWhile_prefix _).subset h1)
        · exact fmtRat_no_lb q 2 c h2
      · exact annotate_no_lb t τ (τ + q) vb false hw c h3
    match hparse : readLeadingFloat line with
    | none =>
      rw [reannotateLoop_cons_none t vb line rest τ hparse] at hl
      rcases List.mem_cons.mp hl with rfl | hmem
      · exact hline
      · exact ih τ hrest l hmem
    | some q =>
      by_cases hge : τ + q ≥ t.duration
      · rw [reannotateLoop_cons_break t vb line rest τ q hparse hge] at hl
        simp only [List.mem_singleton] at hl
        subst hl
        exact hnewline q
      · rw [reannotateLoop_cons_cont t vb line rest τ q hparse hge] at hl
        rcases List.mem_cons.mp hl with rfl | hmem
        · exact hnewline q
        · exact ih (τ + q) hrest l hmem

/-- When the re-annotation loop breaks, its output ends in the re-emitted delay
    line, which is non-empty. -/
theorem reannotateLoop_broke_last (t : Transcription) (vb : Bool) :
    ∀ (lines : List PyStr) (τ : ℚ), (reannotateLoop t vb lines τ).2.2 = true →
      ∃ last, ((reannotateLoop t vb lines τ).1).getLast? = some last ∧ last ≠ [] := by
  intro lines
  induction lines with
  | nil =>
    intro τ hbr
    simp [reannotateLoop] at hbr
  | cons line rest ih =>
    intro τ hbr
    match hparse : readLeadingFloat line with
    | none =>
      rw [reannotateLoop_cons_none t vb line rest τ hparse] at hbr ⊢
      obtain ⟨last, hsome, hne⟩ := ih τ (by simpa using hbr)
      refine ⟨last, ?_, hne⟩
      dsimp only
      rcases hx : (reannotateLoop t vb rest τ).1 with - | ⟨y, ys⟩
      · rw [hx] at hsome
        simp at hsome
      · rw [List.getLast?_cons_cons]
        rw [hx] at hsome
        exact hsome
    | some q =>
      by_cases hge : τ + q ≥ t.duration
      · rw [reannotateLoop_cons_break t vb line rest τ q hparse hge]
        refine ⟨leadingSpaces line ++ fmtRat q 2 ++ annotate t τ (τ + q) vb false,
          List.getLast?_singleton _, ?_⟩
        intro h0
        have hlen := congrArg List.length h0
        rw [List.length_append, List.length_append, List.length_nil] at hlen
        have hf : 0 < (fmtRat q 2).length := List.length_pos.mpr (fmtRat_ne_nil q 2)
        omega
      · rw [reannotateLoop_cons_cont t vb line rest τ q hparse hge] at hbr ⊢
        obtain ⟨last, hsome, hne⟩ := ih (τ + q) (by simpa using hbr)
        refine ⟨last, ?_, hne⟩
        dsimp only
        rcases hx : (reannotateLoop t vb rest (τ + q)).1 with - | ⟨y, ys⟩
        · rw [hx] at hsome
          simp at hsome
        · rw [List.getLast?_cons_cons]
          rw [hx] at hsome
          exact hsome

/-- The re-annotation loop is a fixpoint on its own output: when the delays of
    the input are exact at two decimals and the loop broke, running the loop
    again over the produced lines from the same start time reproduces them
    (pass-through lines are unchanged, each re-emitted delay parses back to the
    same value, and the recomputed annotations coincide). -/
theorem reannotateLoop_fixpoint (t : Transcription) (vb : Bool) :
    ∀ (lines : List PyStr) (τ : ℚ),
      (∀ l ∈ lines, (((readLeadingFloat l).getD 0) * 100).den = 1) →
      (reannotateLoop t vb lines τ).2.2 = true →
      reannotateLoop t vb ((reannotateLoop t vb lines τ).1) τ
        = reannotateLoop t vb lines τ := by
  intro lines
  induction lines with
  | nil =>
    intro τ _ hbr
    simp [reannotateLoop] at hbr
  | cons line rest ih =>
    intro τ hst hbr
    match hparse : readLeadingFloat line with
    | none =>
      rw [reannotateLoop_cons_none t vb line rest τ hparse] at hbr ⊢
      dsimp only
      rw [reannotateLoop_cons_none t vb line _ τ hparse,
        ih τ (fun l hl => hst l (by simp [hl])) (by simpa using hbr)]
    | some q =>
      have hq0 : 0 ≤ q := readLeadingFloat_nonneg line q hparse
      have hden : (q * 10 ^ 2).den = 1 := by
        have h := hst line (by simp)
        rw [hparse] at h
        simp only [Option.getD_some] at h
        have h3 : (q * 10 ^ 2 : ℚ) = q * 100 := by norm_num
        rw [h3]
        exact h
      have hws : ∀ c ∈ leadingSpaces line, isPySpace c = true :=
        fun c hc => List.mem_takeWhile_imp hc
      have hreparse : readLeadingFloat (leadingSpaces line ++ fmtRat q 2
          ++ annotate t τ (τ + q) vb false) = some q :=
        readLeadingFloat_roundtrip _ q 2 _ hws hq0 hden (by omega)
          (numStopper_annotate t τ (τ + q) vb false)
      have hpre : leadingSpaces (leadingSpaces line ++ fmtRat q 2
          ++ annotate t τ (τ + q) vb false) = leadingSpaces line :=
        leadingSpaces_ws_fmt _ q 2 _ hws
      by_cases hge : τ + q ≥ t.duration
      · rw [reannotateLoop_cons_break t vb line rest τ q hparse hge]
        dsimp only
        rw [reannotateLoop_cons_break t vb _ [] τ q hreparse hge, hpre]
      · rw [reannotateLoop_cons_cont t vb line rest τ q hparse hge] at hbr ⊢
        dsimp only
        rw [reannotateLoop_cons_cont t vb _ _ τ q hreparse hge, hpre,
          ih (τ + q) (fun l hl => hst l (by simp [hl])) (by simpa using hbr)]

/-- Claim C2 (amended): re-annotation is idempotent on scripts with at least one
    delay line, all of whose delay values are exact at two decimals, whose
    accumulated delay exactly covers the transcript duration, for transcripts
    whose words contain no line-boundary character.  Without two-decimal
    exactness a first pass rewrites `0.125` to `0.12`, after which the delays no
    longer cover the duration and a second pass appends extra frames (see the
    counterexample). -/
theorem stlr_c2_reannotate_idempotent (g : ATLImageGenerator) (vb : Bool) (atl : PyStr)
    (idx idx₂ : ℕ)
    (hdelay : ∃ l ∈ splitlines atl, isDelayLine l = true)
    (hstable : ∀ l ∈ splitlines atl, (((readLeadingFloat l).getD 0) * 100).den = 1)
    (hwords : ∀ w ∈ g.transcription, ∀ c ∈ w.word, isLineBoundary c = false)
    (hcover : atlDuration (splitlines atl) = g.transcription.duration) :
    ∃ out, reannotate g vb atl idx = some out ∧ reannotate g vb out idx₂ = some out := by
  obtain ⟨-, hbroke⟩ := reannotateLoop_break_drop g.transcription vb (splitlines atl) [] 0
    hdelay (by rw [zero_add, hcover])
  have hfirst : reannotate_lines g vb (splitlines atl) idx
      = some ((reannotateLoop g.transcription vb (splitlines atl) 0).1) := by
    rw [reannotate_lines]
    dsimp only
    rw [hbroke]
    simp
  refine ⟨joinNl ((reannotateLoop g.transcription vb (splitlines atl) 0).1), ?_, ?_⟩
  · rw [reannotate, hfirst]
    rfl
  · have hnlL : ∀ l ∈ (reannotateLoop g.transcription vb (splitlines atl) 0).1,
        ∀ c ∈ l, isLineBoundary c = false :=
      reannotateLoop_no_lb g.transcription vb hwords (splitlines atl) 0 (splitlines_no_lb atl)
    obtain ⟨last, hsome, hlastne⟩ :=
      reannotateLoop_broke_last g.transcription vb (splitlines atl) 0 hbroke
    have hsplit : splitlines (joinNl ((reannotateLoop g.transcription vb (splitlines atl) 0).1))
        = (reannotateLoop g.transcription vb (splitlines atl) 0).1 :=
      splitlines_joinNl _ hnlL (fun x hx => by
        rw [Option.mem_def, hsome, Option.some_inj] at hx
        exact hx ▸ hlastne)
    have hfix := reannotateLoop_fixpoint g.transcription vb (splitlines atl) 0 hstable hbroke
    rw [reannotate, hsplit]
    have hsecond : reannotate_lines g vb
        ((reannotateLoop g.transcription vb (splitlines atl) 0).1) idx₂
        = some ((reannotateLoop g.transcription vb (splitlines atl) 0).1) := by
      rw [reannotate_lines]
      dsimp only
      rw [hfix, hbroke]
      simp
    rw [hsecond]
    rfl

/-- Witness for C2: a one-line script `0.25` over a quarter-second transcript
    (a delay value exact at two decimals covering the duration). -/
theorem stlr_c2_reannotate_idempotent_witness :
    ((∃ l ∈ splitlines ("0.25".data), isDelayLine l = true)
      ∧ (∀ l ∈ splitlines ("0.25".data), (((readLeadingFloat l).getD 0) * 100).den = 1)
      ∧ (∀ w ∈ ([⟨"w".data, 0, 1/4, 0⟩] : Transcription),
          ∀ c ∈ w.word, isLineBoundary c = false)
      ∧ atlDuration (splitlines ("0.25".data))
          = Transcription.duration [⟨"w".data, 0, 1/4, 0⟩])
    ∧ ∃ out,
        reannotate ⟨"g".data, [⟨"w".data, 0, 1/4, 0⟩], "o.png".data, "c.png".data⟩ true
            ("0.25".data) 0 = some out
        ∧ reannotate ⟨"g".data, [⟨"w".data, 0, 1/4, 0⟩], "o.png".data, "c.png".data⟩ true
            out 0 = some out :=
  ⟨⟨⟨("0.25").data, by decide, by decide⟩, by decide, by decide, by decide⟩,
    stlr_c2_reannotate_idempotent
      ⟨"g".data, [⟨"w".data, 0, 1/4, 0⟩], "o.png".data, "c.png".data⟩ true ("0.25".data) 0 0
      ⟨("0.25").data, by decide, by decide⟩ (by decide) (by decide) (by decide)⟩

/-- Counterexample to C2 as stated: the script `0.125` exactly covers the
    0.125-second transcript, but the first pass re-emits the delay at two
    decimals as `0.12`; the second pass then no longer reaches the duration,
    appends buffer frames, and its output differs from the first pass. -/
theorem stlr_c2_reannotate_idempotent_counterexample :
    atlDuration (splitlines ("0.125".data)) = Transcription.duration [⟨"w".data, 0, 1/8, 0⟩]
    ∧ ((reannotate ⟨"g".data, [⟨"w".data, 0, 1/8, 0⟩], "o.png".data, "c.png".data⟩ true
          ("0.125".data) 0).bind
        (fun s => reannotate ⟨"g".data, [⟨"w".data, 0, 1/8, 0⟩], "o.png".data, "c.png".data⟩
          true s 0))
      ≠ reannotate ⟨"g".data, [⟨"w".data, 0, 1/8, 0⟩], "o.png".data, "c.png".data⟩ true
          ("0.125".data) 0 := by
  exact ⟨by decide, by decide⟩

end Stlr
